import Mathlib

/-!
# Verification of the PythonBattleGame core (battle queue, minimax playstyles,
skill decision tree)

This file is a shallow embedding of the repository's core modules:

* `a2_battle_queue.py` — `BattleQueue` and `RestrictedBattleQueue`;
* `a2_playstyle.py` — `get_state_score`, `get_state_score_player`,
  `MinimaxRecursivePlaystyle.select_attack`,
  `MinimaxIterativePlaystyle.select_attack`, `GameStateNode`;
* `a2_skill_decision_tree.py` — `SkillDecisionTree`;
* `a2_skills.py` — the concrete skill effects.

The `Character` class lives in `a2_characters.py`, which is not part of the
sources (the spec lists the concrete actors as excluded collaborators).  Its
interface (`get_hp`/`get_sp`, `get_available_actions`, `attack`,
`special_attack`, `copy`, the `enemy` back-reference, and per-archetype
defense) is modelled from the spec together with the doctests that *are* in
the sources.  Only the Mage and Rogue archetypes are modelled: they are the
two archetypes whose full numeric behavior (costs, damages, defense) is
pinned down by the committed doctests, and they are the ones every battle
queue / playstyle doctest uses.

Game states are modelled with value semantics: a queue state is the ticket
list (each ticket names one of the two players) together with the two
players' current data.  `BattleQueue.copy` rebuilds the ticket sequence by
mapping each ticket to the clone of the corresponding player, so on this
abstraction it is the identity (lemma `bq_copy_eq`).  A separate heap-based
model (`World`/`HQueue`, later in this file) keeps character cells in an
explicit arena and is used for the aliasing/frame claims, where value
semantics would trivialize the statements.

Both recursive searches of the source (`get_state_score_player` and the
iterative minimax loop) terminate because every available action costs at
least 3 SP; they are embedded with an explicit fuel argument together with
fuel-sufficiency lemmas, and the entry points supply a proven-sufficient
fuel, so all definitions compute.
-/

/-- The two combatants of a queue.  Characters are compared by object
identity in Python; with exactly two live actors, identity is the tag. -/
inductive Player where
  | P1 : Player
  | P2 : Player
deriving DecidableEq, Repr

open Player

/-- The opponent relation (`character.enemy`). -/
def otherP : Player → Player
  | P1 => P2
  | P2 => P1

/-- The character archetypes modelled here (see the module docstring). -/
inductive CharKind where
  | mage : CharKind
  | rogue : CharKind
deriving DecidableEq, Repr

/-- Modelled from the spec: the data the core needs from a `Character` —
its archetype and its current HP and SP. -/
structure CharData where
  kind : CharKind
  hp : Nat
  sp : Nat
deriving DecidableEq, Repr

/-- The action strings of `a2_playstyle.py`: `'A'`, `'S'`, `'X'`. -/
inductive Move where
  | A : Move
  | S : Move
  | X : Move
deriving DecidableEq, Repr

/-- SP cost of the normal attack (`a2_skills.py`: `MageAttack` costs 5,
`RogueAttack` costs 3). -/
def attack_cost : CharKind → Nat
  | CharKind.mage => 5
  | CharKind.rogue => 3

/-- Damage of the normal attack (`MageAttack` 20, `RogueAttack` 15). -/
def attack_damage : CharKind → Nat
  | CharKind.mage => 20
  | CharKind.rogue => 15

/-- SP cost of the special attack (`MageSpecial` 30, `RogueSpecial` 10). -/
def special_cost : CharKind → Nat
  | CharKind.mage => 30
  | CharKind.rogue => 10

/-- Damage of the special attack (`MageSpecial` 40, `RogueSpecial` 20). -/
def special_damage : CharKind → Nat
  | CharKind.mage => 40
  | CharKind.rogue => 20

/-- Modelled from the spec: per-archetype defense, pinned by the doctests in
the sources (a Rogue hit by a 15-damage `RogueAttack` ends at 95 HP, so
Rogue defense is 10; a Mage hit by a 20-damage `RogueSpecial` ends at 88 HP,
so Mage defense is 8). -/
def defense : CharKind → Nat
  | CharKind.mage => 8
  | CharKind.rogue => 10

/-- Modelled from the spec: `Character.get_available_actions()` returns the
sublist of `['A', 'S']` whose SP costs the character can currently afford
(witnessed by the `RestrictedBattleQueue._clean_queue` doctest, where a
Rogue at 2 SP has no available actions). -/
def available_actions (c : CharData) : List Move :=
  (if attack_cost c.kind ≤ c.sp then [Move.A] else []) ++
    (if special_cost c.kind ≤ c.sp then [Move.S] else [])

/-- Modelled from the spec: `Character.apply_damage` reduces HP by the
damage net of defense, flooring at 0 (`Nat` subtraction floors both the
net damage and the HP at 0). -/
def apply_damage (c : CharData) (dmg : Nat) : CharData :=
  { c with hp := c.hp - (dmg - defense c.kind) }

/-- Modelled from the spec: `Character.reduce_sp`. -/
def reduce_sp (c : CharData) (cost : Nat) : CharData :=
  { c with sp := c.sp - cost }

/-- A `BattleQueue` state with both players assigned: the ticket list
(`_content`, each ticket naming the player holding it) and the data of
`_p1` and `_p2`. -/
structure GameState where
  content : List Player
  p1 : CharData
  p2 : CharData
deriving DecidableEq, Repr

/-- The character currently bound to a tag. -/
def charOf (gs : GameState) : Player → CharData
  | P1 => gs.p1
  | P2 => gs.p2

/-- Update the character bound to a tag. -/
def setChar (gs : GameState) : Player → CharData → GameState
  | P1, c => { gs with p1 := c }
  | P2, c => { gs with p2 := c }

/-- `BattleQueue._clean_queue`: pop leading tickets whose holder has no
available actions.  (The players' stats do not change while cleaning, so
the Python while-loop is a `dropWhile`.) -/
def clean_queue (gs : GameState) : GameState :=
  { gs with
    content := gs.content.dropWhile (fun p => available_actions (charOf gs p) == []) }

/-- `BattleQueue.peek`: clean, then return the front ticket's holder, or
`_p1` if the queue is empty. -/
def bq_peek (gs : GameState) : Player :=
  ((clean_queue gs).content.head?).getD P1

/-- `BattleQueue.is_empty`: clean, then test for emptiness. -/
def bq_is_empty (gs : GameState) : Bool :=
  (clean_queue gs).content.isEmpty

/-- `BattleQueue.is_over`. -/
def bq_is_over (gs : GameState) : Bool :=
  bq_is_empty gs || gs.p1.hp == 0 || gs.p2.hp == 0

/-- `BattleQueue.get_winner`. -/
def get_winner (gs : GameState) : Option Player :=
  if !bq_is_over gs then none
  else if gs.p1.hp == 0 then some P2
  else if gs.p2.hp == 0 then some P1
  else none

/-- `BattleQueue.remove` (the popped character itself is unused by the
search code, so only the state change is modelled; popping an empty queue
is an `IndexError` in Python and never happens in the modelled flows). -/
def bq_remove (gs : GameState) : GameState :=
  let c := clean_queue gs
  { c with content := c.content.tail }

/-- `BattleQueue.add` on a queue whose players are assigned: append a
ticket. -/
def bq_add (gs : GameState) (p : Player) : GameState :=
  { gs with content := gs.content ++ [p] }

/-- `BattleQueue.copy`: clone both players (the clones carry the same
data), then rebuild the ticket list, sending each ticket to the clone of
`_p1` or of `_p2` by identity comparison with `_p1`.  On the value
abstraction the clone of a player is the player's tag again. -/
def bq_copy (gs : GameState) : GameState :=
  { content := gs.content.map (fun t => if t = P1 then P1 else P2)
    p1 := gs.p1
    p2 := gs.p2 }

@[simp] theorem bq_copy_eq (gs : GameState) : bq_copy gs = gs := by
  cases gs with
  | mk content p1 p2 =>
    simp only [bq_copy]
    congr 1
    induction content with
    | nil => rfl
    | cons h t ih =>
      cases h <;> simp_all

/-- `Skill._deal_damage`: reduce the caster's SP, apply damage to the
target (`attack()` / `special_attack()` target the caster's enemy). -/
def deal_damage (gs : GameState) (caster : Player) (cost dmg : Nat) : GameState :=
  let gs1 := setChar gs caster (reduce_sp (charOf gs caster) cost)
  setChar gs1 (otherP caster) (apply_damage (charOf gs1 (otherP caster)) dmg)

/-- `Character.attack()` resolved through `a2_skills.py`:
`NormalAttack.use` deals damage and enqueues the caster. -/
def char_attack (gs : GameState) (caster : Player) : GameState :=
  let k := (charOf gs caster).kind
  bq_add (deal_damage gs caster (attack_cost k) (attack_damage k)) caster

/-- `Character.special_attack()` resolved through `a2_skills.py`:
`MageSpecial.use` deals damage then enqueues the target and the caster;
`RogueSpecial.use` deals damage then enqueues the caster twice. -/
def char_special (gs : GameState) (caster : Player) : GameState :=
  match (charOf gs caster).kind with
  | CharKind.mage =>
      bq_add (bq_add (deal_damage gs caster 30 40) (otherP caster)) caster
  | CharKind.rogue =>
      bq_add (bq_add (deal_damage gs caster 10 20) caster) caster

/-- The action dispatch of the playstyle code:
`if action == 'A': current_player.attack() else: current_player.special_attack()`. -/
def apply_move (a : Move) (caster : Player) (gs : GameState) : GameState :=
  if a = Move.A then char_attack gs caster else char_special gs caster

/-- `max(scores)` for a nonempty list (Python's `max`); `0` on the empty
list, which the search never produces. -/
def max_list : List Int → Int
  | [] => 0
  | h :: t => t.foldl max h

/-- The terminal-state score shared by `get_state_score_player` and the
iterative loop's terminal branch: the winner's HP from the perspective
actor's point of view, `0` if there is no winner. -/
def terminal_score (persp : Player) (gs : GameState) : Int :=
  match get_winner gs with
  | some w => if persp = w then ((charOf gs w).hp : Int) else -((charOf gs w).hp : Int)
  | none => 0

/-- One action branch of `get_state_score_player`: copy the (cleaned)
queue, let the clone's front actor perform the action, and consume the
front ticket if that actor still has actions. -/
def branch_state (gs : GameState) (a : Move) : GameState :=
  let g := clean_queue gs
  let temp := bq_copy g
  let cur := bq_peek temp
  let t1 := apply_move a cur temp
  if available_actions (charOf t1 cur) ≠ [] then bq_remove t1 else t1

/-- The perspective remapping of `get_state_score_player`: if the
perspective actor is the front actor of the original queue, it corresponds
to the clone's front actor, otherwise to that actor's enemy. -/
def branch_persp (persp : Player) (gs : GameState) : Player :=
  let g := clean_queue gs
  let cur := bq_peek (bq_copy g)
  if persp = bq_peek g then cur else otherP cur

/-- `get_state_score_player`, with an explicit fuel argument (the recursion
terminates because each branch spends at least 3 SP; see
`state_score_fuel_congr`). -/
def state_score_fuel : Nat → Player → GameState → Int
  | 0, _, _ => 0
  | f + 1, persp, gs =>
    if bq_is_over gs then terminal_score persp gs
    else
      max_list ((available_actions (charOf (clean_queue gs) (bq_peek (clean_queue gs)))).map
        (fun a => state_score_fuel f (branch_persp persp gs) (branch_state gs a)))

/-- The total SP pool, the termination measure of the search. -/
def sp_sum (gs : GameState) : Nat := gs.p1.sp + gs.p2.sp

/-- `get_state_score_player` at a proven-sufficient fuel. -/
def get_state_score_player (persp : Player) (gs : GameState) : Int :=
  state_score_fuel (sp_sum gs + 1) persp gs

/-- `get_state_score`: copy the queue, peek the copy (which cleans it), and
score from the front actor's perspective. -/
def get_state_score (gs : GameState) : Int :=
  let new_bq := bq_copy gs
  get_state_score_player (bq_peek new_bq) (clean_queue new_bq)

/-! ### Basic invariances of the queue operations -/

@[simp] theorem charOf_clean (gs : GameState) (p : Player) :
    charOf (clean_queue gs) p = charOf gs p := by
  cases p <;> rfl

@[simp] theorem charOf_remove (gs : GameState) (p : Player) :
    charOf (bq_remove gs) p = charOf gs p := by
  cases p <;> rfl

@[simp] theorem charOf_add (gs : GameState) (q p : Player) :
    charOf (bq_add gs q) p = charOf gs p := by
  cases p <;> rfl

@[simp] theorem sp_sum_clean (gs : GameState) : sp_sum (clean_queue gs) = sp_sum gs := rfl

@[simp] theorem sp_sum_remove (gs : GameState) : sp_sum (bq_remove gs) = sp_sum gs := rfl

@[simp] theorem sp_sum_add (gs : GameState) (p : Player) :
    sp_sum (bq_add gs p) = sp_sum gs := rfl

theorem dropWhile_dropWhile (p : α → Bool) (l : List α) :
    (l.dropWhile p).dropWhile p = l.dropWhile p := by
  induction l with
  | nil => rfl
  | cons h t ih =>
    by_cases hp : p h = true
    · simp [List.dropWhile_cons, hp, ih]
    · simp [List.dropWhile_cons, hp]

theorem GameState.ext_mk (a b : GameState) (h1 : a.content = b.content)
    (h2 : a.p1 = b.p1) (h3 : a.p2 = b.p2) : a = b := by
  cases a
  cases b
  simp_all

theorem clean_content (gs : GameState) :
    (clean_queue gs).content
      = gs.content.dropWhile (fun p => available_actions (charOf gs p) == []) := rfl

@[simp] theorem clean_queue_idem (gs : GameState) :
    clean_queue (clean_queue gs) = clean_queue gs := by
  have hpred : (fun p => available_actions (charOf (clean_queue gs) p) == [])
      = (fun p => available_actions (charOf gs p) == []) := by
    funext p
    cases p <;> rfl
  apply GameState.ext_mk
  · rw [clean_content (clean_queue gs), hpred, clean_content gs, dropWhile_dropWhile]
  · rfl
  · rfl

@[simp] theorem bq_peek_clean (gs : GameState) : bq_peek (clean_queue gs) = bq_peek gs := by
  simp [bq_peek]

@[simp] theorem bq_is_empty_clean (gs : GameState) :
    bq_is_empty (clean_queue gs) = bq_is_empty gs := by
  simp [bq_is_empty]

@[simp] theorem bq_is_over_clean (gs : GameState) :
    bq_is_over (clean_queue gs) = bq_is_over gs := by
  simp [bq_is_over]
  rfl

@[simp] theorem get_winner_clean (gs : GameState) :
    get_winner (clean_queue gs) = get_winner gs := by
  simp only [get_winner, bq_is_over_clean]
  rfl

@[simp] theorem terminal_score_clean (persp : Player) (gs : GameState) :
    terminal_score persp (clean_queue gs) = terminal_score persp gs := by
  simp only [terminal_score, get_winner_clean, charOf_clean]

@[simp] theorem branch_persp_eq (persp : Player) (gs : GameState) :
    branch_persp persp gs = persp := by
  simp only [branch_persp, bq_copy_eq]
  cases h : bq_peek (clean_queue gs) <;> cases persp <;> simp [otherP]

/-! ### Availability and SP accounting -/

theorem mem_available_A (c : CharData) :
    Move.A ∈ available_actions c ↔ attack_cost c.kind ≤ c.sp := by
  simp only [available_actions, List.mem_append]
  constructor
  · rintro (h | h) <;> split at h <;> simp_all
  · intro h
    left
    simp [h]

theorem mem_available_S (c : CharData) :
    Move.S ∈ available_actions c ↔ special_cost c.kind ≤ c.sp := by
  simp only [available_actions, List.mem_append]
  constructor
  · rintro (h | h) <;> split at h <;> simp_all
  · intro h
    right
    simp [h]

theorem not_mem_available_X (c : CharData) : Move.X ∉ available_actions c := by
  simp only [available_actions, List.mem_append]
  rintro (h | h) <;> split at h <;> simp_all

theorem attack_cost_pos (k : CharKind) : 0 < attack_cost k := by
  cases k <;> decide

theorem special_cost_pos (k : CharKind) : 0 < special_cost k := by
  cases k <;> decide

theorem attack_cost_le_special (k : CharKind) : attack_cost k ≤ special_cost k := by
  cases k <;> decide

theorem sp_sum_deal_lt (gs : GameState) (c : Player) (cost dmg : Nat)
    (hle : cost ≤ (charOf gs c).sp) (hpos : 0 < cost) :
    sp_sum (deal_damage gs c cost dmg) < sp_sum gs := by
  cases c <;>
    simp only [deal_damage, setChar, charOf, otherP, apply_damage, reduce_sp, sp_sum] at * <;>
    omega

theorem sp_sum_apply_move_lt (gs : GameState) (p : Player) (a : Move)
    (h : a ∈ available_actions (charOf gs p)) :
    sp_sum (apply_move a p gs) < sp_sum gs := by
  cases a with
  | A =>
    rw [mem_available_A] at h
    simpa [apply_move, char_attack] using
      sp_sum_deal_lt gs p _ _ h (attack_cost_pos _)
  | S =>
    rw [mem_available_S] at h
    cases hk : (charOf gs p).kind <;>
      · rw [hk] at h
        simp only [apply_move, char_special, hk, special_cost] at *
        simpa using sp_sum_deal_lt gs p _ _ h (by omega)
  | X => exact absurd h (not_mem_available_X _)

theorem sp_sum_branch_lt (gs : GameState) (a : Move)
    (h : a ∈ available_actions (charOf (clean_queue gs) (bq_peek (clean_queue gs)))) :
    sp_sum (branch_state gs a) < sp_sum gs := by
  simp only [branch_state, bq_copy_eq, bq_peek_clean, charOf_clean] at *
  split
  · calc sp_sum (bq_remove (apply_move a (bq_peek gs) (clean_queue gs)))
        = sp_sum (apply_move a (bq_peek gs) (clean_queue gs)) := sp_sum_remove _
      _ < sp_sum gs := by
          have := sp_sum_apply_move_lt (clean_queue gs) (bq_peek gs) a (by simpa using h)
          simpa using this
  · have := sp_sum_apply_move_lt (clean_queue gs) (bq_peek gs) a (by simpa using h)
    simpa using this

/-! ### Fuel sufficiency for the state scorer -/

theorem state_score_fuel_congr :
    ∀ f1 f2 (persp : Player) (gs : GameState), sp_sum gs < f1 → sp_sum gs < f2 →
      state_score_fuel f1 persp gs = state_score_fuel f2 persp gs := by
  intro f1
  induction f1 with
  | zero => intro f2 persp gs h1; omega
  | succ a ih =>
    intro f2 persp gs h1 h2
    cases f2 with
    | zero => omega
    | succ b =>
      simp only [state_score_fuel]
      split
      · rfl
      · congr 1
        apply List.map_congr_left
        intro x hx
        have hlt := sp_sum_branch_lt gs x hx
        exact ih b (branch_persp persp gs) (branch_state gs x) (by omega) (by omega)

theorem get_state_score_player_unfold (persp : Player) (gs : GameState) :
    get_state_score_player persp gs =
      if bq_is_over gs then terminal_score persp gs
      else
        max_list ((available_actions (charOf (clean_queue gs) (bq_peek (clean_queue gs)))).map
          (fun a => get_state_score_player persp (branch_state gs a))) := by
  rw [get_state_score_player]
  conv_lhs => rw [state_score_fuel]
  split
  · rfl
  · congr 1
    apply List.map_congr_left
    intro x hx
    have hlt := sp_sum_branch_lt gs x hx
    rw [branch_persp_eq]
    simp only [get_state_score_player]
    exact state_score_fuel_congr _ _ _ _ (by omega) (by omega)

/-! ### `max_list` (Python's `max`) -/

theorem foldl_max_mem (t : List Int) (a : Int) : t.foldl max a = a ∨ t.foldl max a ∈ t := by
  induction t generalizing a with
  | nil => exact Or.inl rfl
  | cons h t ih =>
    rcases ih (max a h) with heq | hmem
    · rcases max_choice a h with hc | hc
      · refine Or.inl ?_
        rw [List.foldl_cons, heq, hc]
      · refine Or.inr ?_
        rw [List.foldl_cons, heq, hc]
        exact List.mem_cons_self h t
    · exact Or.inr (List.mem_cons_of_mem _ hmem)

theorem le_foldl_max (t : List Int) (a : Int) :
    a ≤ t.foldl max a ∧ ∀ x ∈ t, x ≤ t.foldl max a := by
  induction t generalizing a with
  | nil => exact ⟨le_refl a, by simp⟩
  | cons h t ih =>
    obtain ⟨h1, h2⟩ := ih (max a h)
    refine ⟨le_trans (le_max_left a h) h1, ?_⟩
    intro x hx
    rcases List.mem_cons.mp hx with rfl | hx
    · exact le_trans (le_max_right a x) h1
    · exact h2 x hx

theorem max_list_mem (l : List Int) (h : l ≠ []) : max_list l ∈ l := by
  cases l with
  | nil => exact absurd rfl h
  | cons a t =>
    show t.foldl max a ∈ a :: t
    rcases foldl_max_mem t a with heq | hmem
    · rw [heq]
      exact List.mem_cons_self a t
    · exact List.mem_cons_of_mem _ hmem

theorem le_max_list (l : List Int) (x : Int) (hx : x ∈ l) : x ≤ max_list l := by
  cases l with
  | nil => simp at hx
  | cons a t =>
    rcases List.mem_cons.mp hx with rfl | hx
    · exact (le_foldl_max t x).1
    · exact (le_foldl_max t a).2 x hx

@[simp] theorem max_list_single (x : Int) : max_list [x] = x := rfl

@[simp] theorem max_list_pair (x y : Int) : max_list [x, y] = max x y := rfl

/-! ### The front actor's available actions -/

/-- The action list the playstyles read off the front actor
(`battle_queue.peek().get_available_actions()`). -/
def front_actions (gs : GameState) : List Move :=
  available_actions (charOf (clean_queue gs) (bq_peek (clean_queue gs)))

theorem dropWhile_head_false (p : α → Bool) (l : List α) (x : α)
    (h : (l.dropWhile p).head? = some x) : p x = false := by
  induction l with
  | nil => simp [List.dropWhile] at h
  | cons a t ih =>
    by_cases hp : p a = true
    · exact ih (by simpa [List.dropWhile_cons, hp] using h)
    · simp only [List.dropWhile_cons, hp] at h
      simp only [List.head?] at h
      cases h
      simpa using hp

theorem front_actions_ne_nil (gs : GameState) (h : bq_is_over gs = false) :
    front_actions gs ≠ [] := by
  have hne : (clean_queue gs).content ≠ [] := by
    intro hc
    simp [bq_is_over, bq_is_empty, hc] at h
  cases hh : (clean_queue gs).content with
  | nil => exact absurd hh hne
  | cons a t =>
    have hx : (clean_queue gs).content.head? = some a := by rw [hh]; rfl
    have hpred := dropWhile_head_false (fun p => available_actions (charOf gs p) == [])
      gs.content a (by rw [← clean_content]; exact hx)
    have hpk : bq_peek (clean_queue gs) = a := by
      simp [bq_peek, clean_queue_idem, hx]
    simp only [front_actions, hpk, charOf_clean]
    simpa using hpred

theorem front_actions_cases (gs : GameState) :
    front_actions gs = [] ∨ front_actions gs = [Move.A] ∨
      front_actions gs = [Move.A, Move.S] := by
  obtain ⟨c, hc⟩ : ∃ c, c = charOf (clean_queue gs) (bq_peek (clean_queue gs)) := ⟨_, rfl⟩
  simp only [front_actions, ← hc, available_actions]
  by_cases h1 : attack_cost c.kind ≤ c.sp
  · by_cases h2 : special_cost c.kind ≤ c.sp
    · right
      right
      rw [if_pos h1, if_pos h2]
      rfl
    · right
      left
      rw [if_pos h1, if_neg h2]
      rfl
  · have h2 : ¬ special_cost c.kind ≤ c.sp := fun hh =>
      h1 (le_trans (attack_cost_le_special _) hh)
    left
    rw [if_neg h1, if_neg h2]
    rfl

/-! ### Relating `get_state_score` to the scorer on the cleaned state -/

/-- The guaranteed score of one action branch (it is what the
`scores.append(...)` of `get_state_score_player` computes, since the
perspective remapping is the identity on tags: `branch_persp_eq`). -/
def branch_score (gs : GameState) (a : Move) : Int :=
  get_state_score_player (bq_peek gs) (branch_state gs a)

@[simp] theorem branch_state_clean (gs : GameState) (a : Move) :
    branch_state (clean_queue gs) a = branch_state gs a := by
  simp [branch_state]

theorem get_state_score_player_clean (persp : Player) (gs : GameState) :
    get_state_score_player persp (clean_queue gs) = get_state_score_player persp gs := by
  rw [get_state_score_player_unfold, get_state_score_player_unfold persp gs]
  simp

theorem get_state_score_eq (gs : GameState) :
    get_state_score gs = get_state_score_player (bq_peek gs) gs := by
  simp [get_state_score, get_state_score_player_clean]

theorem get_state_score_unfold (gs : GameState) (h : bq_is_over gs = false) :
    get_state_score gs = max_list ((front_actions gs).map (branch_score gs)) := by
  rw [get_state_score_eq, get_state_score_player_unfold]
  simp only [h, Bool.false_eq_true, if_false, front_actions]
  rfl

@[simp] theorem get_state_score_clean (gs : GameState) :
    get_state_score (clean_queue gs) = get_state_score gs := by
  rw [get_state_score_eq, get_state_score_eq, bq_peek_clean, get_state_score_player_clean]

/-! ### `MinimaxRecursivePlaystyle.select_attack` -/

/-- `-sys.maxsize` on a 64-bit CPython, the initial value of the score
accumulators of the recursive `select_attack`. -/
def neg_maxsize : Int := -(2 ^ 63 - 1)

/-- The body of the `for action in actions` loop of
`MinimaxRecursivePlaystyle.select_attack`.  The accumulator is
`(highest_score, score_attack, score_special_attack)`: each iteration
copies the playstyle's queue, recomputes `highest_score` via
`get_state_score`, performs the action on the copy's front actor, consumes
the stale front ticket if that actor still has actions, and stores the
resulting guaranteed score in the slot of the action performed. -/
def rec_step (g : GameState) (st : Int × Int × Int) (a : Move) : Int × Int × Int :=
  let temp := bq_copy g
  let hs := get_state_score temp
  let cur := bq_peek temp
  let t1 := apply_move a cur temp
  let t2 := if available_actions (charOf t1 cur) ≠ [] then bq_remove t1 else t1
  let sc := get_state_score_player cur t2
  if a = Move.A then (hs, sc, st.2.2) else (hs, st.2.1, sc)

/-- `MinimaxRecursivePlaystyle.select_attack`: read the front actor's
actions (`peek` cleans the queue), run the loop, then return `'A'` if
`highest_score == score_attack`, `'S'` if it equals
`score_special_attack`, `'X'` otherwise. -/
def select_attack_rec (gs : GameState) : Move :=
  let g := clean_queue gs
  let acts := available_actions (charOf g (bq_peek g))
  if acts.isEmpty then Move.X
  else
    let r := acts.foldl (rec_step g) (neg_maxsize, neg_maxsize, neg_maxsize)
    if r.1 = r.2.1 then Move.A
    else if r.1 = r.2.2 then Move.S
    else Move.X

theorem rec_step_eq (gs : GameState) (st : Int × Int × Int) (a : Move) :
    rec_step (clean_queue gs) st a =
      if a = Move.A then (get_state_score gs, branch_score gs a, st.2.2)
      else (get_state_score gs, st.2.1, branch_score gs a) := by
  simp only [rec_step, bq_copy_eq, clean_queue_idem, bq_peek_clean, branch_score, branch_state,
    get_state_score_clean]

theorem rec_step_A (gs : GameState) (st : Int × Int × Int) :
    rec_step (clean_queue gs) st Move.A
      = (get_state_score gs, branch_score gs Move.A, st.2.2) := by
  rw [rec_step_eq]
  rfl

theorem rec_step_S (gs : GameState) (st : Int × Int × Int) :
    rec_step (clean_queue gs) st Move.S
      = (get_state_score gs, st.2.1, branch_score gs Move.S) := by
  rw [rec_step_eq]
  rfl

theorem select_attack_rec_single (gs : GameState) (hover : bq_is_over gs = false)
    (hacts : front_actions gs = [Move.A]) : select_attack_rec gs = Move.A := by
  have hroot : get_state_score gs = branch_score gs Move.A := by
    rw [get_state_score_unfold gs hover, hacts]
    simp
  simp only [select_attack_rec]
  rw [show available_actions (charOf (clean_queue gs) (bq_peek (clean_queue gs)))
      = [Move.A] from hacts]
  simp only [List.isEmpty_cons, Bool.false_eq_true, if_false, List.foldl_cons, List.foldl_nil,
    rec_step_A]
  simp [hroot]

theorem select_attack_rec_both (gs : GameState) (hover : bq_is_over gs = false)
    (hacts : front_actions gs = [Move.A, Move.S]) :
    select_attack_rec gs =
      (if get_state_score gs = branch_score gs Move.A then Move.A else Move.S) := by
  have hroot : get_state_score gs = max (branch_score gs Move.A) (branch_score gs Move.S) := by
    rw [get_state_score_unfold gs hover, hacts]
    simp
  simp only [select_attack_rec]
  rw [show available_actions (charOf (clean_queue gs) (bq_peek (clean_queue gs)))
      = [Move.A, Move.S] from hacts]
  simp only [List.isEmpty_cons, Bool.false_eq_true, if_false, List.foldl_cons, List.foldl_nil,
    rec_step_A, rec_step_S]
  by_cases hA : get_state_score gs = branch_score gs Move.A
  · simp [hA]
  · have hS : get_state_score gs = branch_score gs Move.S := by
      rcases max_choice (branch_score gs Move.A) (branch_score gs Move.S) with hm | hm
      · exact absurd (hroot.trans hm) hA
      · exact hroot.trans hm
    simp [hA, hS]

/-! ### `MinimaxIterativePlaystyle` — the explicit search tree -/

/-- `GameStateNode` of `a2_playstyle.py`.  Node objects are mutated by the
loop (`children` and `highest_score` are assigned in place), so nodes live
in an arena (`List GameStateNode`) and `children` stores arena indices;
the explicit stack stores arena indices as well. -/
structure GameStateNode where
  battle_queue : GameState
  current_player : Player
  action_taken : Move
  highest_score : Option Int
  children : Option (List Nat)
deriving DecidableEq, Repr

/-- `MinimaxIterativePlaystyle.get_children_nodes`: copy the parent's
queue, and for every action available to its front actor create a child
node holding the action-applied queue (with the stale front ticket
consumed when the actor retains actions) and the parent's perspective
actor remapped into the fresh copy. -/
def get_children_nodes (nd : GameStateNode) : List GameStateNode :=
  let bq := clean_queue (bq_copy nd.battle_queue)
  (available_actions (charOf bq (bq_peek bq))).map (fun a =>
    let temp := bq_copy bq
    let cur := bq_peek temp
    let orig := if nd.current_player = bq_peek nd.battle_queue then cur else otherP cur
    let t1 := apply_move a cur temp
    let t2 := if available_actions (charOf t1 cur) ≠ [] then bq_remove t1 else t1
    { battle_queue := t2, current_player := orig, action_taken := a,
      highest_score := none, children := none })

/-- One iteration of the `while count > 0` loop of
`MinimaxIterativePlaystyle.select_attack`: pop a node id and
1. if its state is not over and it is unexpanded, append its children to
   the arena, record their ids, and push the node back followed by its
   children;
2. if its state is not over and it has a nonempty (hence fully scored)
   child list, store the maximum of the children's scores;
3. otherwise score it by the terminal rule.
The returned list is what gets pushed (top of stack first). -/
def minimax_step (ns : List GameStateNode) (i : Nat) :
    List GameStateNode × List Nat :=
  match ns[i]? with
  | none => (ns, [])
  | some nd =>
    if bq_is_over nd.battle_queue = false ∧ nd.children = none then
      let cs := get_children_nodes nd
      let ids := List.range' ns.length cs.length
      ((ns.set i { nd with children := some ids }) ++ cs, ids.reverse ++ [i])
    else if bq_is_over nd.battle_queue = false ∧ nd.children ≠ none ∧ nd.children ≠ some [] then
      let ids := nd.children.getD []
      let sc := max_list (ids.map (fun j => ((ns[j]?).bind GameStateNode.highest_score).getD 0))
      (ns.set i { nd with highest_score := some sc }, [])
    else
      (ns.set i
        { nd with highest_score := some (terminal_score nd.current_player nd.battle_queue) }, [])

/-- The `while count > 0` loop, with fuel (every run of the source loop is
finite; `select_attack_iter` passes a proven-sufficient fuel). -/
def minimax_loop : Nat → List GameStateNode → List Nat → List GameStateNode
  | 0, ns, _ => ns
  | _ + 1, ns, [] => ns
  | f + 1, ns, i :: rest =>
    minimax_loop f (minimax_step ns i).1 ((minimax_step ns i).2 ++ rest)

/-- `MinimaxIterativePlaystyle.select_attack`.  After the loop, the source
iterates `root_node.children` comparing each child's score with the
root's; if the root was never expanded (`children is None`) that iteration
raises a `TypeError`, modelled as `none`.  The fallback when no child
matches is `root_node.action_taken`, i.e. `'X'`. -/
def select_attack_iter (gs : GameState) : Option Move :=
  let g := clean_queue gs
  let acts := available_actions (charOf g (bq_peek g))
  if acts.isEmpty then some Move.X
  else
    let bq := bq_copy g
    let root : GameStateNode := ⟨bq, bq_peek bq, Move.X, none, none⟩
    let ns := minimax_loop (2 ^ (sp_sum g + 2)) [root] [0]
    match ns[0]? with
    | none => none
    | some rn =>
      match rn.children with
      | none => none
      | some ids =>
        let rootScore := rn.highest_score.getD 0
        match ids.find?
            (fun j => (((ns[j]?).bind GameStateNode.highest_score).getD 0) == rootScore) with
        | some j => some (((ns[j]?).map GameStateNode.action_taken).getD Move.X)
        | none => some Move.X

/-- The guaranteed score a node's stored state has for its stored
perspective actor: what the loop ends up storing in `highest_score`. -/
def node_score (nd : GameStateNode) : Int :=
  get_state_score_player nd.current_player nd.battle_queue

/-- The child node `get_children_nodes` builds for one action. -/
def child_node (nd : GameStateNode) (a : Move) : GameStateNode :=
  ⟨branch_state nd.battle_queue a, nd.current_player, a, none, none⟩

theorem get_children_nodes_eq (nd : GameStateNode) :
    get_children_nodes nd = (front_actions nd.battle_queue).map (child_node nd) := by
  simp only [get_children_nodes, bq_copy_eq, clean_queue_idem, bq_peek_clean, front_actions,
    charOf_clean]
  apply List.map_congr_left
  intro a _
  have hpl : (if nd.current_player = bq_peek nd.battle_queue then bq_peek nd.battle_queue
      else otherP (bq_peek nd.battle_queue)) = nd.current_player := by
    cases h1 : nd.current_player <;> cases h2 : bq_peek nd.battle_queue <;> simp [otherP]
  rw [hpl]
  simp only [child_node, branch_state, bq_copy_eq, clean_queue_idem, bq_peek_clean]

theorem node_score_terminal (nd : GameStateNode)
    (h : bq_is_over nd.battle_queue = true) :
    node_score nd = terminal_score nd.current_player nd.battle_queue := by
  rw [node_score, get_state_score_player_unfold, if_pos h]

theorem node_score_expand (nd : GameStateNode)
    (h : bq_is_over nd.battle_queue = false) :
    node_score nd =
      max_list ((front_actions nd.battle_queue).map (fun a => node_score (child_node nd a))) := by
  rw [node_score, get_state_score_player_unfold]
  simp only [h, Bool.false_eq_true, if_false]
  rfl

/-! ### Stepping lemmas for the iterative loop -/

theorem minimax_loop_nil (f : Nat) (ns : List GameStateNode) :
    minimax_loop f ns [] = ns := by
  cases f <;> rfl

theorem minimax_loop_succ (f : Nat) (ns : List GameStateNode) (i : Nat) (rest : List Nat) :
    minimax_loop (f + 1) ns (i :: rest)
      = minimax_loop f (minimax_step ns i).1 ((minimax_step ns i).2 ++ rest) := rfl

theorem minimax_step_terminal (ns : List GameStateNode) (i : Nat) (nd : GameStateNode)
    (h : ns[i]? = some nd) (hover : bq_is_over nd.battle_queue = true) :
    minimax_step ns i = (ns.set i
      { nd with highest_score := some (terminal_score nd.current_player nd.battle_queue) },
      []) := by
  have c1 : ¬ (bq_is_over nd.battle_queue = false ∧ nd.children = none) := by simp [hover]
  have c2 : ¬ (bq_is_over nd.battle_queue = false ∧ nd.children ≠ none
      ∧ nd.children ≠ some []) := by simp [hover]
  simp only [minimax_step, h, if_neg c1, if_neg c2]

theorem minimax_step_expand (ns : List GameStateNode) (i : Nat) (nd : GameStateNode)
    (h : ns[i]? = some nd) (hover : bq_is_over nd.battle_queue = false)
    (hch : nd.children = none) :
    minimax_step ns i =
      ((ns.set i { nd with
          children := some (List.range' ns.length (get_children_nodes nd).length) })
          ++ get_children_nodes nd,
        (List.range' ns.length (get_children_nodes nd).length).reverse ++ [i]) := by
  have c1 : bq_is_over nd.battle_queue = false ∧ nd.children = none := ⟨hover, hch⟩
  simp only [minimax_step, h, if_pos c1]

theorem minimax_step_combine (ns : List GameStateNode) (i : Nat) (nd : GameStateNode)
    (ids : List Nat) (h : ns[i]? = some nd) (hover : bq_is_over nd.battle_queue = false)
    (hch : nd.children = some ids) (hne : ids ≠ []) :
    minimax_step ns i = (ns.set i { nd with highest_score := some (max_list (ids.map (fun j => ((ns[j]?).bind GameStateNode.highest_score).getD 0))) }, []) := by
  simp only [minimax_step, h, hch]
  have c1 : ¬ (bq_is_over nd.battle_queue = false ∧ (some ids : Option (List Nat)) = none) := by
    simp
  have c2 : bq_is_over nd.battle_queue = false ∧ (some ids : Option (List Nat)) ≠ none
      ∧ (some ids : Option (List Nat)) ≠ some [] := ⟨hover, by simp, by simp [hne]⟩
  rw [if_neg c1, if_pos c2]
  simp

/-! ### Quantitative SP accounting for the search-tree bound -/

theorem attack_cost_ge3 (k : CharKind) : 3 ≤ attack_cost k := by cases k <;> decide

theorem special_cost_ge3 (k : CharKind) : 3 ≤ special_cost k := by cases k <;> decide

theorem charOf_sp_le (gs : GameState) (p : Player) : (charOf gs p).sp ≤ sp_sum gs := by
  cases p <;> simp [charOf, sp_sum]

theorem sp_sum_ge_3 (gs : GameState) (h : front_actions gs ≠ []) : 3 ≤ sp_sum gs := by
  have hA : Move.A ∈ front_actions gs := by
    rcases front_actions_cases gs with hc | hc | hc
    · exact absurd hc h
    · rw [hc]; exact List.mem_cons_self _ _
    · rw [hc]; exact List.mem_cons_self _ _
  rw [front_actions, mem_available_A] at hA
  calc 3 ≤ attack_cost (charOf (clean_queue gs) (bq_peek (clean_queue gs))).kind :=
        attack_cost_ge3 _
    _ ≤ (charOf (clean_queue gs) (bq_peek (clean_queue gs))).sp := hA
    _ ≤ sp_sum (clean_queue gs) := charOf_sp_le _ _
    _ = sp_sum gs := sp_sum_clean gs

theorem sp_sum_deal_add (gs : GameState) (c : Player) (cost dmg : Nat)
    (hle : cost ≤ (charOf gs c).sp) :
    sp_sum (deal_damage gs c cost dmg) + cost = sp_sum gs := by
  cases c <;>
    simp only [deal_damage, setChar, charOf, otherP, apply_damage, reduce_sp, sp_sum] at * <;>
    omega

theorem sp_sum_apply_move_add3 (gs : GameState) (p : Player) (a : Move)
    (h : a ∈ available_actions (charOf gs p)) :
    sp_sum (apply_move a p gs) + 3 ≤ sp_sum gs := by
  cases a with
  | A =>
    rw [mem_available_A] at h
    have := sp_sum_deal_add gs p (attack_cost (charOf gs p).kind)
      (attack_damage (charOf gs p).kind) h
    have h3 := attack_cost_ge3 (charOf gs p).kind
    simp only [apply_move, char_attack, reduceIte, sp_sum_add]
    omega
  | S =>
    rw [mem_available_S] at h
    cases hk : (charOf gs p).kind with
    | mage =>
      rw [hk] at h
      have := sp_sum_deal_add gs p 30 40 (by simpa [special_cost] using h)
      have hSA : ¬ (Move.S = Move.A) := by decide
      simp only [apply_move, char_special, hk, if_neg hSA, sp_sum_add]
      omega
    | rogue =>
      rw [hk] at h
      have := sp_sum_deal_add gs p 10 20 (by simpa [special_cost] using h)
      have hSA : ¬ (Move.S = Move.A) := by decide
      simp only [apply_move, char_special, hk, if_neg hSA, sp_sum_add]
      omega
  | X => exact absurd h (not_mem_available_X _)

theorem sp_sum_branch_add3 (gs : GameState) (a : Move) (h : a ∈ front_actions gs) :
    sp_sum (branch_state gs a) + 3 ≤ sp_sum gs := by
  rw [front_actions] at h
  simp only [branch_state, bq_copy_eq, bq_peek_clean]
  have h2 := sp_sum_apply_move_add3 (clean_queue gs) (bq_peek gs) a
    (by rw [charOf_clean]; rw [bq_peek_clean, charOf_clean] at h; exact h)
  split
  · rw [sp_sum_remove]
    simpa using h2
  · simpa using h2

theorem front_actions_len (gs : GameState) : (front_actions gs).length ≤ 2 := by
  rcases front_actions_cases gs with hc | hc | hc <;> simp [hc]

theorem children_sp_add3 (nd : GameStateNode) (c : GameStateNode)
    (hc : c ∈ get_children_nodes nd) :
    sp_sum c.battle_queue + 3 ≤ sp_sum nd.battle_queue := by
  rw [get_children_nodes_eq] at hc
  obtain ⟨a, ha, rfl⟩ := List.mem_map.mp hc
  exact sp_sum_branch_add3 _ a ha

theorem children_fresh (nd : GameStateNode) (c : GameStateNode)
    (hc : c ∈ get_children_nodes nd) : c.children = none := by
  rw [get_children_nodes_eq] at hc
  obtain ⟨a, ha, rfl⟩ := List.mem_map.mp hc
  rfl

theorem map_range'_eq {β : Type} (cs : List GameStateNode) (f : Nat → β)
    (g : GameStateNode → β) :
    ∀ (n : Nat), (∀ r (hr : r < cs.length), f (n + r) = g (cs.get ⟨r, hr⟩)) →
      (List.range' n cs.length).map f = cs.map g := by
  induction cs with
  | nil => intro n _; rfl
  | cons c cs ih =>
    intro n h
    rw [List.length_cons, List.range'_succ, List.map_cons, List.map_cons]
    congr 1
    · exact h 0 (by simp)
    · apply ih
      intro r hr
      have := h (r + 1) (by simpa using Nat.succ_lt_succ hr)
      rw [show n + (r + 1) = n + 1 + r by omega] at this
      exact this

/-! ### The loop computes every node's minimax score -/

/-- Proof device: the statement that the loop, popping an unexpanded node
whose queue has SP pool at most `B`, fully evaluates it — consuming some
amount `T` of loop iterations bounded by `2 ^ (spPool + 2)`, only
appending to the arena and rewriting the entry of the popped node, and
storing exactly `node_score` there. -/
def NodeEvalDone (B : Nat) : Prop :=
  ∀ (nd : GameStateNode) (ns : List GameStateNode) (i : Nat) (S : List Nat),
    ns[i]? = some nd → nd.children = none → sp_sum nd.battle_queue ≤ B →
    ∃ T ns2 ch,
      T ≤ 2 ^ (sp_sum nd.battle_queue + 2) ∧
      (∀ k, minimax_loop (T + k) ns (i :: S) = minimax_loop k ns2 S) ∧
      ns.length ≤ ns2.length ∧
      (∀ j, j ≠ i → j < ns.length → ns2[j]? = ns[j]?) ∧
      ns2[i]? = some { nd with highest_score := some (node_score nd), children := ch }

theorem children_processed (B : Nat) (hp : NodeEvalDone B) :
    ∀ (l : List Nat) (ns : List GameStateNode) (S : List Nat),
      (∀ j ∈ l, ∃ c, ns[j]? = some c ∧ c.children = none ∧ sp_sum c.battle_queue ≤ B) →
      l.Nodup →
      ∃ T ns2, T ≤ l.length * 2 ^ (B + 2) ∧
        (∀ k, minimax_loop (T + k) ns (l ++ S) = minimax_loop k ns2 S) ∧
        ns.length ≤ ns2.length ∧
        (∀ j, j ∉ l → j < ns.length → ns2[j]? = ns[j]?) ∧
        (∀ j ∈ l, ∃ c ch, ns[j]? = some c ∧
          ns2[j]? = some { c with highest_score := some (node_score c), children := ch }) := by
  intro l
  induction l with
  | nil =>
    intro ns S _ _
    refine ⟨0, ns, by simp, ?_, le_refl _, fun j _ _ => rfl, by simp⟩
    intro k
    simp only [Nat.zero_add, List.nil_append]
  | cons j l2 ih =>
    intro ns S hmem hnodup
    obtain ⟨c, hc, hcch, hcsp⟩ := hmem j (List.mem_cons_self j l2)
    obtain ⟨T1, ns1, ch1, hT1, hrun1, hlen1, hframe1, hfin1⟩ := hp c ns j (l2 ++ S) hc hcch hcsp
    have hmem2 : ∀ j2 ∈ l2, ∃ c2, ns1[j2]? = some c2 ∧ c2.children = none
        ∧ sp_sum c2.battle_queue ≤ B := by
      intro j2 hj2
      obtain ⟨c2, hc2, h1, h2⟩ := hmem j2 (List.mem_cons_of_mem _ hj2)
      have hne : j2 ≠ j := by
        intro hx
        subst hx
        exact (List.nodup_cons.mp hnodup).1 hj2
      have hlt : j2 < ns.length := (List.getElem?_eq_some.mp hc2).1
      exact ⟨c2, (hframe1 j2 hne hlt).trans hc2, h1, h2⟩
    obtain ⟨T2, ns2, hT2, hrun2, hlen2, hframe2, hfin2⟩ :=
      ih ns1 S hmem2 (List.nodup_cons.mp hnodup).2
    refine ⟨T1 + T2, ns2, ?_, ?_, le_trans hlen1 hlen2, ?_, ?_⟩
    · have hb : T1 ≤ 2 ^ (B + 2) :=
        le_trans hT1 (Nat.pow_le_pow_right (by norm_num) (by omega))
      calc T1 + T2 ≤ 2 ^ (B + 2) + l2.length * 2 ^ (B + 2) := by omega
        _ = (l2.length + 1) * 2 ^ (B + 2) := by ring
        _ = (j :: l2).length * 2 ^ (B + 2) := by simp [Nat.add_comm]
    · intro k
      calc minimax_loop ((T1 + T2) + k) ns ((j :: l2) ++ S)
          = minimax_loop (T1 + (T2 + k)) ns (j :: (l2 ++ S)) := by rw [Nat.add_assoc]; rfl
        _ = minimax_loop (T2 + k) ns1 (l2 ++ S) := hrun1 (T2 + k)
        _ = minimax_loop k ns2 S := hrun2 k
    · intro j3 hj3 hlt
      have hne : j3 ≠ j := fun hx => hj3 (hx ▸ List.mem_cons_self j l2)
      have hnl2 : j3 ∉ l2 := fun hx => hj3 (List.mem_cons_of_mem _ hx)
      exact (hframe2 j3 hnl2 (lt_of_lt_of_le hlt hlen1)).trans (hframe1 j3 hne hlt)
    · intro j3 hj3
      rcases List.mem_cons.mp hj3 with rfl | hj3m
      · have hjlt : j3 < ns.length := (List.getElem?_eq_some.mp hc).1
        have hnotl2 : j3 ∉ l2 := (List.nodup_cons.mp hnodup).1
        refine ⟨c, ch1, hc, ?_⟩
        rw [hframe2 j3 hnotl2 (lt_of_lt_of_le hjlt hlen1)]
        exact hfin1
      · obtain ⟨c2, ch2, hc2, hfin⟩ := hfin2 j3 hj3m
        have hne : j3 ≠ j := by
          intro hx
          subst hx
          exact (List.nodup_cons.mp hnodup).1 hj3m
        have hlt : j3 < ns.length := by
          obtain ⟨c0, hc0, _, _⟩ := hmem j3 (List.mem_cons_of_mem _ hj3m)
          exact (List.getElem?_eq_some.mp hc0).1
        refine ⟨c2, ch2, ?_, hfin⟩
        rw [← hframe1 j3 hne hlt]
        exact hc2

theorem node_eval_done_all : ∀ (B : Nat), NodeEvalDone B := by
  intro B
  induction B using Nat.strong_induction_on with
  | _ B IH =>
    intro nd ns i S hns hch hsp
    have hilt : i < ns.length := (List.getElem?_eq_some.mp hns).1
    by_cases hover : bq_is_over nd.battle_queue = true
    · -- terminal node: a single loop iteration stores the terminal score
      refine ⟨1, ns.set i { nd with highest_score := some (node_score nd) }, nd.children,
        ?_, ?_, ?_, ?_, ?_⟩
      · have h2p : 0 < 2 ^ (sp_sum nd.battle_queue + 2) := by positivity
        omega
      · intro k
        rw [Nat.add_comm 1 k, minimax_loop_succ, minimax_step_terminal ns i nd hns hover,
          ← node_score_terminal nd hover]
        rfl
      · simp
      · intro j hj _
        have : i ≠ j := Ne.symm hj
        simp [List.getElem?_set, this]
      · simp [List.getElem?_set, hilt]
    · -- unexpanded non-terminal node: expand, evaluate all children, combine
      have hover2 : bq_is_over nd.battle_queue = false := by
        revert hover
        cases bq_is_over nd.battle_queue <;> simp
      have hacts : front_actions nd.battle_queue ≠ [] :=
        front_actions_ne_nil _ hover2
      have hm3 : 3 ≤ sp_sum nd.battle_queue := sp_sum_ge_3 _ hacts
      obtain ⟨cs, hcs⟩ : ∃ x, x = get_children_nodes nd := ⟨_, rfl⟩
      obtain ⟨ids, hids⟩ : ∃ x, x = List.range' ns.length cs.length := ⟨_, rfl⟩
      obtain ⟨nd1, hnd1⟩ : ∃ x, x = { nd with children := some ids } := ⟨_, rfl⟩
      obtain ⟨ns1, hns1⟩ : ∃ x, x = (ns.set i nd1) ++ cs := ⟨_, rfl⟩
      have hcs_ne : cs ≠ [] := by
        rw [hcs, get_children_nodes_eq]
        simpa using hacts
      have hids_ne : ids ≠ [] := by
        rw [hids]
        intro hid
        apply hcs_ne
        have := congrArg List.length hid
        simpa [List.length_range'] using this
      have hp2 : NodeEvalDone (sp_sum nd.battle_queue - 3) := IH _ (by omega)
      have hsetlen : (ns.set i nd1).length = ns.length := List.length_set ns i nd1
      have hns1len : ns1.length = ns.length + cs.length := by
        rw [hns1, List.length_append, hsetlen]
      have hnotmem : ∀ j, j < ns.length → j ∉ ids.reverse := by
        intro j hj hmem
        rw [hids, List.mem_reverse, List.mem_range'] at hmem
        obtain ⟨r, _, rfl⟩ := hmem
        omega
      have hlook : ∀ r (hr : r < cs.length), ns1[ns.length + r]? = some (cs.get ⟨r, hr⟩) := by
        intro r hr
        rw [hns1, List.getElem?_append_right (by omega : (ns.set i nd1).length ≤ ns.length + r)]
        rw [hsetlen, show ns.length + r - ns.length = r by omega]
        exact List.getElem?_eq_getElem hr
      have hmemc : ∀ j ∈ ids.reverse, ∃ c, ns1[j]? = some c ∧ c.children = none
          ∧ sp_sum c.battle_queue ≤ sp_sum nd.battle_queue - 3 := by
        intro j hj
        rw [hids, List.mem_reverse, List.mem_range'] at hj
        obtain ⟨r, hr, rfl⟩ := hj
        have hr1 : ns.length + 1 * r = ns.length + r := by ring
        rw [hr1]
        refine ⟨cs.get ⟨r, hr⟩, hlook r hr, ?_, ?_⟩
        · have hmem2 : cs.get ⟨r, hr⟩ ∈ get_children_nodes nd := by
            rw [← hcs]
            exact List.get_mem cs r hr
          exact children_fresh nd _ hmem2
        · have hmem2 : cs.get ⟨r, hr⟩ ∈ get_children_nodes nd := by
            rw [← hcs]
            exact List.get_mem cs r hr
          have := children_sp_add3 nd _ hmem2
          omega
      have hnodups : ids.reverse.Nodup := by
        rw [hids, List.nodup_reverse]
        exact List.nodup_range' _ _
      obtain ⟨T2, ns2, hT2, hrun2, hlen2, hframe2, hfin2⟩ :=
        children_processed _ hp2 ids.reverse ns1 (i :: S) hmemc hnodups
      have hi_in_ns1 : ns1[i]? = some nd1 := by
        rw [hns1, List.getElem?_append, if_pos (by rw [hsetlen]; exact hilt),
          List.getElem?_set, if_pos rfl, if_pos hilt]
      have hi2 : ns2[i]? = some nd1 := by
        rw [hframe2 i (hnotmem i hilt) (by omega)]
        exact hi_in_ns1
      have hscore : ids.map (fun j => ((ns2[j]?).bind GameStateNode.highest_score).getD 0)
          = cs.map node_score := by
        rw [hids]
        apply map_range'_eq
        intro r hr
        have hjmem : ns.length + 1 * r ∈ ids.reverse := by
          rw [hids, List.mem_reverse, List.mem_range']
          exact ⟨r, hr, rfl⟩
        obtain ⟨c, ch, hc1, hc2⟩ := hfin2 _ hjmem
        rw [show ns.length + 1 * r = ns.length + r by ring] at hc1 hc2
        have hceq : c = cs.get ⟨r, hr⟩ := by
          have h2 := (hlook r hr).symm.trans hc1
          exact ((Option.some.injEq _ _).mp h2).symm
        rw [hc2, hceq]
        rfl
      have hmax : max_list (ids.map fun j => ((ns2[j]?).bind GameStateNode.highest_score).getD 0)
          = node_score nd := by
        rw [hscore, hcs, get_children_nodes_eq, List.map_map, node_score_expand nd hover2]
        rfl
      refine ⟨T2 + 2, ns2.set i { nd with highest_score := some (node_score nd), children := some ids }, some ids, ?_, ?_, ?_, ?_, ?_⟩
      · -- fuel bound
        have hl : ids.reverse.length = cs.length := by
          rw [hids]
          simp [List.length_range']
        have hcl : cs.length ≤ 2 := by
          rw [hcs, get_children_nodes_eq, List.length_map]
          exact front_actions_len nd.battle_queue
        have hT2b : T2 ≤ 2 * 2 ^ (sp_sum nd.battle_queue - 3 + 2) := by
          refine le_trans hT2 (Nat.mul_le_mul_right _ ?_)
          omega
        have hpow1 : 2 ^ (sp_sum nd.battle_queue - 3 + 2) * 2 = 2 ^ sp_sum nd.battle_queue := by
          rw [← pow_succ]
          congr 1
          omega
        have hpow2 : 2 ^ (sp_sum nd.battle_queue + 2) = 2 ^ sp_sum nd.battle_queue * 4 := by
          rw [pow_add]
          norm_num
        have hpow3 : 1 ≤ 2 ^ sp_sum nd.battle_queue := Nat.one_le_two_pow
        omega
      · -- the run equation
        intro k
        rw [show (T2 + 2) + k = (T2 + (1 + k)) + 1 by omega, minimax_loop_succ,
          minimax_step_expand ns i nd hns hover2 hch, ← hcs, ← hids, ← hnd1, ← hns1,
          List.append_assoc, List.singleton_append, hrun2 (1 + k), Nat.add_comm 1 k,
          minimax_loop_succ,
          minimax_step_combine ns2 i nd1 ids hi2 (by rw [hnd1]; exact hover2)
            (by rw [hnd1]) hids_ne, hmax]
        rw [hnd1]
        rfl
      · rw [List.length_set]
        omega
      · intro j hj hjlt
        rw [List.getElem?_set, if_neg (Ne.symm hj), hframe2 j (hnotmem j hjlt) (by omega),
          hns1, List.getElem?_append, if_pos (by rw [hsetlen]; exact hjlt),
          List.getElem?_set, if_neg (Ne.symm hj)]
      · rw [List.getElem?_set, if_pos rfl, if_pos (by omega)]

@[simp] theorem front_actions_clean (gs : GameState) :
    front_actions (clean_queue gs) = front_actions gs := by
  simp [front_actions]

theorem root_loop_result (root : GameStateNode) (hch : root.children = none)
    (hover : bq_is_over root.battle_queue = false) (f : Nat)
    (hf : 2 ^ (sp_sum root.battle_queue + 2) ≤ f) :
    ∃ ns2 : List GameStateNode,
      minimax_loop f [root] [0] = ns2 ∧
      ns2[0]? = some { root with highest_score := some (node_score root), children := some (List.range' 1 (get_children_nodes root).length) } ∧
      (∀ r c, (get_children_nodes root)[r]? = some c → ∃ ch,
        ns2[1 + r]? = some { c with highest_score := some (node_score c), children := ch }) := by
  have hacts : front_actions root.battle_queue ≠ [] := front_actions_ne_nil _ hover
  have hm3 : 3 ≤ sp_sum root.battle_queue := sp_sum_ge_3 _ hacts
  obtain ⟨cs, hcs⟩ : ∃ x, x = get_children_nodes root := ⟨_, rfl⟩
  obtain ⟨ids, hids⟩ : ∃ x, x = List.range' 1 cs.length := ⟨_, rfl⟩
  obtain ⟨nd1, hnd1⟩ : ∃ x, x = { root with children := some ids } := ⟨_, rfl⟩
  obtain ⟨ns1, hns1⟩ : ∃ x, x = ([root].set 0 nd1) ++ cs := ⟨_, rfl⟩
  have hcs_ne : cs ≠ [] := by
    rw [hcs, get_children_nodes_eq]
    simpa using hacts
  have hids_ne : ids ≠ [] := by
    rw [hids]
    intro hid
    apply hcs_ne
    have := congrArg List.length hid
    simpa [List.length_range'] using this
  have hp2 : NodeEvalDone (sp_sum root.battle_queue - 3) := node_eval_done_all _
  have hns1len : ns1.length = 1 + cs.length := by
    rw [hns1, List.length_append]
    rfl
  have hnotmem : (0 : Nat) ∉ ids.reverse := by
    rw [hids, List.mem_reverse, List.mem_range']
    rintro ⟨r, _, h⟩
    omega
  have hlook : ∀ r (hr : r < cs.length), ns1[1 + r]? = some (cs.get ⟨r, hr⟩) := by
    intro r hr
    rw [hns1, List.getElem?_append_right (by simp : ([root].set 0 nd1).length ≤ 1 + r)]
    rw [show 1 + r - ([root].set 0 nd1).length = r by simp, ]
    exact List.getElem?_eq_getElem hr
  have hmemc : ∀ j ∈ ids.reverse, ∃ c, ns1[j]? = some c ∧ c.children = none
      ∧ sp_sum c.battle_queue ≤ sp_sum root.battle_queue - 3 := by
    intro j hj
    rw [hids, List.mem_reverse, List.mem_range'] at hj
    obtain ⟨r, hr, rfl⟩ := hj
    rw [show 1 + 1 * r = 1 + r by ring]
    refine ⟨cs.get ⟨r, hr⟩, hlook r hr, ?_, ?_⟩
    · have hmem2 : cs.get ⟨r, hr⟩ ∈ get_children_nodes root := by
        rw [← hcs]
        exact List.get_mem cs r hr
      exact children_fresh root _ hmem2
    · have hmem2 : cs.get ⟨r, hr⟩ ∈ get_children_nodes root := by
        rw [← hcs]
        exact List.get_mem cs r hr
      have := children_sp_add3 root _ hmem2
      omega
  have hnodups : ids.reverse.Nodup := by
    rw [hids, List.nodup_reverse]
    exact List.nodup_range' _ _
  obtain ⟨T2, ns2, hT2, hrun2, hlen2, hframe2, hfin2⟩ :=
    children_processed _ hp2 ids.reverse ns1 (0 :: []) hmemc hnodups
  have hi_in_ns1 : ns1[0]? = some nd1 := by
    rw [hns1, List.getElem?_append, if_pos (by simp)]
    rfl
  have hi2 : ns2[0]? = some nd1 := by
    rw [hframe2 0 hnotmem (by omega)]
    exact hi_in_ns1
  have hscore : ids.map (fun j => ((ns2[j]?).bind GameStateNode.highest_score).getD 0)
      = cs.map node_score := by
    rw [hids]
    apply map_range'_eq
    intro r hr
    have hjmem : 1 + 1 * r ∈ ids.reverse := by
      rw [hids, List.mem_reverse, List.mem_range']
      exact ⟨r, hr, rfl⟩
    obtain ⟨c, ch, hc1, hc2⟩ := hfin2 _ hjmem
    rw [show 1 + 1 * r = 1 + r by ring] at hc1 hc2
    have hceq : c = cs.get ⟨r, hr⟩ := by
      have h2 := (hlook r hr).symm.trans hc1
      exact ((Option.some.injEq _ _).mp h2).symm
    rw [hc2, hceq]
    rfl
  have hmax : max_list (ids.map fun j => ((ns2[j]?).bind GameStateNode.highest_score).getD 0)
      = node_score root := by
    rw [hscore, hcs, get_children_nodes_eq, List.map_map, node_score_expand root hover]
    rfl
  have hT2b : T2 + 2 ≤ 2 ^ (sp_sum root.battle_queue + 2) := by
    have hl : ids.reverse.length = cs.length := by
      rw [hids]
      simp [List.length_range']
    have hcl : cs.length ≤ 2 := by
      rw [hcs, get_children_nodes_eq, List.length_map]
      exact front_actions_len root.battle_queue
    have hT2c : T2 ≤ 2 * 2 ^ (sp_sum root.battle_queue - 3 + 2) := by
      refine le_trans hT2 (Nat.mul_le_mul_right _ ?_)
      omega
    have hpow1 : 2 ^ (sp_sum root.battle_queue - 3 + 2) * 2 = 2 ^ sp_sum root.battle_queue := by
      rw [← pow_succ]
      congr 1
      omega
    have hpow2 : 2 ^ (sp_sum root.battle_queue + 2) = 2 ^ sp_sum root.battle_queue * 4 := by
      rw [pow_add]
      norm_num
    have hpow3 : 1 ≤ 2 ^ sp_sum root.battle_queue := Nat.one_le_two_pow
    omega
  refine ⟨ns2.set 0 { root with highest_score := some (node_score root), children := some ids }, ?_, ?_, ?_⟩
  · have hrun : ∀ k, minimax_loop ((T2 + 2) + k) [root] [0]
        = minimax_loop k (ns2.set 0 { root with highest_score := some (node_score root), children := some ids }) [] := by
      intro k
      rw [show (T2 + 2) + k = (T2 + (1 + k)) + 1 by omega, minimax_loop_succ,
        minimax_step_expand [root] 0 root (by rfl) hover hch]
      rw [show ([root] : List GameStateNode).length = 1 from rfl, ← hcs, ← hids, ← hnd1, ← hns1,
        List.append_assoc, List.singleton_append, hrun2 (1 + k), Nat.add_comm 1 k,
        minimax_loop_succ,
        minimax_step_combine ns2 0 nd1 ids hi2 (by rw [hnd1]; exact hover)
          (by rw [hnd1]) hids_ne, hmax]
      rw [hnd1]
      rfl
    rw [show f = (T2 + 2) + (f - (T2 + 2)) by omega, hrun (f - (T2 + 2)), minimax_loop_nil]
  · rw [List.getElem?_set, if_pos rfl, if_pos (by omega), ← hcs, ← hids]
  · intro r c0 hrc
    subst hcs
    have hr : r < (get_children_nodes root).length := (List.getElem?_eq_some.mp hrc).1
    have hc0 : c0 = (get_children_nodes root).get ⟨r, hr⟩ := by
      have h2 := (List.getElem?_eq_getElem hr).symm.trans hrc
      exact ((Option.some.injEq _ _).mp h2).symm
    have hjmem : 1 + 1 * r ∈ ids.reverse := by
      rw [hids, List.mem_reverse, List.mem_range']
      exact ⟨r, hr, rfl⟩
    obtain ⟨c, ch, hc1, hc2⟩ := hfin2 _ hjmem
    rw [show 1 + 1 * r = 1 + r by ring] at hc1 hc2
    have hceq : c = (get_children_nodes root).get ⟨r, hr⟩ := by
      have h2 := (hlook r hr).symm.trans hc1
      exact ((Option.some.injEq _ _).mp h2).symm
    refine ⟨ch, ?_⟩
    rw [List.getElem?_set, if_neg (by omega), hc2, hceq, hc0]

theorem select_attack_iter_eq (gs : GameState) (hover : bq_is_over gs = false) :
    select_attack_iter gs = some (select_attack_rec gs) := by
  have hactsne : front_actions gs ≠ [] := front_actions_ne_nil gs hover
  obtain ⟨root, hroot⟩ : ∃ x, x = (⟨bq_copy (clean_queue gs),
    bq_peek (bq_copy (clean_queue gs)), Move.X, none, none⟩ : GameStateNode) := ⟨_, rfl⟩
  have hrootq : root.battle_queue = clean_queue gs := by
    rw [hroot]
    simp
  have hrootp : root.current_player = bq_peek gs := by
    rw [hroot]
    simp
  have hrootch : root.children = none := by rw [hroot]
  have hrov : bq_is_over root.battle_queue = false := by
    rw [hrootq, bq_is_over_clean]
    exact hover
  have hrsp : sp_sum root.battle_queue = sp_sum gs := by
    rw [hrootq, sp_sum_clean]
  have hrootsc : node_score root = get_state_score gs := by
    rw [node_score, hrootq, hrootp, get_state_score_player_clean, ← get_state_score_eq]
  have hcs_eq : get_children_nodes root = (front_actions gs).map
      (fun a => (⟨branch_state gs a, bq_peek gs, a, none, none⟩ : GameStateNode)) := by
    rw [get_children_nodes_eq, hrootq, front_actions_clean]
    apply List.map_congr_left
    intro a _
    simp only [child_node, hrootq, hrootp, branch_state_clean]
  obtain ⟨ns2, hloop, hentry0, hchild⟩ := root_loop_result root hrootch hrov
    (2 ^ (sp_sum (clean_queue gs) + 2)) (le_of_eq (by rw [hrsp, sp_sum_clean]))
  simp only [select_attack_iter]
  rw [show (available_actions
      (charOf (clean_queue gs) (bq_peek (clean_queue gs)))).isEmpty = false by
    rw [List.isEmpty_eq_false]
    exact hactsne]
  rw [if_neg (by simp), ← hroot, hloop, hentry0]
  rcases front_actions_cases gs with h0 | hA | hAS
  · exact absurd h0 hactsne
  · -- only the normal attack is available
    have hcs : get_children_nodes root
        = [⟨branch_state gs Move.A, bq_peek gs, Move.A, none, none⟩] := by
      rw [hcs_eq, hA]
      rfl
    have hroot_score : get_state_score gs = branch_score gs Move.A := by
      rw [get_state_score_unfold gs hover, hA]
      simp
    obtain ⟨ch1, hc1⟩ := hchild 0 ⟨branch_state gs Move.A, bq_peek gs, Move.A, none, none⟩
      (by rw [hcs]; rfl)
    rw [show (1 : Nat) + 0 = 1 from rfl] at hc1
    rw [select_attack_rec_single gs hover hA]
    have hnsA : node_score (⟨branch_state gs Move.A, bq_peek gs, Move.A, none, none⟩ :
        GameStateNode) = branch_score gs Move.A := rfl
    have hbA : ((branch_score gs Move.A : Int) == get_state_score gs) = true := by
      rw [beq_iff_eq]
      exact hroot_score.symm
    simp [hcs, hc1, hrootsc, hnsA, hbA, show List.range' 1 1 = [1] from rfl]
  · -- both actions are available
    have hcs : get_children_nodes root
        = [⟨branch_state gs Move.A, bq_peek gs, Move.A, none, none⟩,
           ⟨branch_state gs Move.S, bq_peek gs, Move.S, none, none⟩] := by
      rw [hcs_eq, hAS]
      rfl
    have hroot_score : get_state_score gs
        = max (branch_score gs Move.A) (branch_score gs Move.S) := by
      rw [get_state_score_unfold gs hover, hAS]
      simp
    obtain ⟨ch1, hc1⟩ := hchild 0 ⟨branch_state gs Move.A, bq_peek gs, Move.A, none, none⟩
      (by rw [hcs]; rfl)
    obtain ⟨ch2, hc2⟩ := hchild 1 ⟨branch_state gs Move.S, bq_peek gs, Move.S, none, none⟩
      (by rw [hcs]; rfl)
    rw [show (1 : Nat) + 0 = 1 from rfl] at hc1
    rw [show (1 : Nat) + 1 = 2 from rfl] at hc2
    rw [select_attack_rec_both gs hover hAS]
    have hnsA : node_score (⟨branch_state gs Move.A, bq_peek gs, Move.A, none, none⟩ :
        GameStateNode) = branch_score gs Move.A := rfl
    have hnsS : node_score (⟨branch_state gs Move.S, bq_peek gs, Move.S, none, none⟩ :
        GameStateNode) = branch_score gs Move.S := rfl
    by_cases hcase : get_state_score gs = branch_score gs Move.A
    · rw [if_pos hcase]
      have hbA : ((branch_score gs Move.A : Int) == get_state_score gs) = true := by
        rw [beq_iff_eq]
        exact hcase.symm
      simp [hcs, hc1, hrootsc, hnsA, hbA, show List.range' 1 2 = [1, 2] from rfl]
    · rw [if_neg hcase]
      have hS : get_state_score gs = branch_score gs Move.S := by
        rcases max_choice (branch_score gs Move.A) (branch_score gs Move.S) with hm | hm
        · exact absurd (hroot_score.trans hm) hcase
        · exact hroot_score.trans hm
      have hbA : ((branch_score gs Move.A : Int) == get_state_score gs) = false := by
        rw [beq_eq_false_iff_ne]
        intro hx
        exact hcase hx.symm
      have hbS : ((branch_score gs Move.S : Int) == get_state_score gs) = true := by
        rw [beq_iff_eq]
        exact hS.symm
      simp [hcs, hc1, hc2, hrootsc, hnsA, hnsS, hbA, hbS,
        show List.range' 1 2 = [1, 2] from rfl]

theorem select_attack_rec_optimal (gs : GameState) (hover : bq_is_over gs = false) :
    select_attack_rec gs ∈ front_actions gs ∧
      branch_score gs (select_attack_rec gs) = get_state_score gs := by
  rcases front_actions_cases gs with h0 | hA | hAS
  · exact absurd h0 (front_actions_ne_nil gs hover)
  · rw [select_attack_rec_single gs hover hA, hA]
    refine ⟨List.mem_cons_self _ _, ?_⟩
    rw [get_state_score_unfold gs hover, hA]
    simp
  · have hroot_score : get_state_score gs
        = max (branch_score gs Move.A) (branch_score gs Move.S) := by
      rw [get_state_score_unfold gs hover, hAS]
      simp
    rw [select_attack_rec_both gs hover hAS]
    by_cases hcase : get_state_score gs = branch_score gs Move.A
    · rw [if_pos hcase]
      exact ⟨by rw [hAS]; exact List.mem_cons_self _ _, hcase.symm⟩
    · rw [if_neg hcase]
      have hS : get_state_score gs = branch_score gs Move.S := by
        rcases max_choice (branch_score gs Move.A) (branch_score gs Move.S) with hm | hm
        · exact absurd (hroot_score.trans hm) hcase
        · exact hroot_score.trans hm
      refine ⟨?_, hS.symm⟩
      rw [hAS]
      exact List.mem_cons_of_mem _ (List.mem_cons_self _ _)

/-! ### `a2_skill_decision_tree.py` -/

/-- The closed set of skill classes of `a2_skills.py`. -/
inductive Skill where
  | mageAttack : Skill
  | mageSpecial : Skill
  | rogueAttack : Skill
  | rogueSpecial : Skill
  | vampireAttack : Skill
  | vampireSpecial : Skill
  | sorcererAttack : Skill
  | sorcererSpecial : Skill
deriving DecidableEq, Repr

/-- Modelled from the spec: the caster/target data the decision-tree
condition functions read (`get_hp` / `get_sp`). -/
structure TChar where
  hp : Nat
  sp : Nat
deriving DecidableEq, Repr

/-- `SkillDecisionTree`.  `__init__` stores `children[:] if children else
[]`, so after construction `children` is always a list and never `None`: a
leaf is a node with an empty `children` list, and the `self.children is
None` test inside `get_possible_skills` can never be true. -/
inductive SkillDecisionTree where
  | node (value : Skill) (condition : TChar → TChar → Bool) (priority : Nat)
      (children : List SkillDecisionTree) : SkillDecisionTree

def SkillDecisionTree.value : SkillDecisionTree → Skill
  | .node v _ _ _ => v

def SkillDecisionTree.condition : SkillDecisionTree → (TChar → TChar → Bool)
  | .node _ c _ _ => c

def SkillDecisionTree.priority : SkillDecisionTree → Nat
  | .node _ _ p _ => p

def SkillDecisionTree.children : SkillDecisionTree → List SkillDecisionTree
  | .node _ _ _ cs => cs

/-- `SkillDecisionTree.get_possible_skills`.  The source reads
`if not self.condition(caster, target) or self.children is None: return
[self]`; since `__init__` normalizes `children` to a list, the second
disjunct is always false and only the condition test remains.  Otherwise
the result is `sum([child.get_possible_skills(...) for child in
self.children], [])`. -/
def get_possible_skills : SkillDecisionTree → TChar → TChar → List SkillDecisionTree
  | SkillDecisionTree.node v cond prio children, caster, target =>
    if ¬ cond caster target then [SkillDecisionTree.node v cond prio children]
    else (children.attach.map
      (fun c => get_possible_skills c.1 caster target)).flatten
termination_by t _ _ => sizeOf t
decreasing_by
  simp_wf
  have := List.sizeOf_lt_of_mem c.2
  omega

theorem get_possible_skills_eq (v : Skill) (cond : TChar → TChar → Bool) (prio : Nat)
    (children : List SkillDecisionTree) (caster target : TChar) :
    get_possible_skills (.node v cond prio children) caster target =
      if ¬ cond caster target then [SkillDecisionTree.node v cond prio children]
      else (children.map (fun c => get_possible_skills c caster target)).flatten := by
  rw [get_possible_skills]
  rw [List.attach_map_val children (fun c => get_possible_skills c caster target)]

/-- `SkillDecisionTree.pick_skill`: `None` on an empty candidate list,
otherwise scan the candidates keeping the node whose priority number is
strictly smaller than the best so far, and return its skill. -/
def pick_skill (t : SkillDecisionTree) (caster target : TChar) : Option Skill :=
  match get_possible_skills t caster target with
  | [] => none
  | h :: rest =>
    some (((h :: rest).foldl
      (fun best n => if n.priority < best.priority then n else best) h).value)

theorem foldl_min_mem (l : List SkillDecisionTree) (init : SkillDecisionTree) :
    (l.foldl (fun best n => if n.priority < best.priority then n else best) init) = init
      ∨ (l.foldl (fun best n => if n.priority < best.priority then n else best) init) ∈ l := by
  induction l generalizing init with
  | nil => exact Or.inl rfl
  | cons h t ih =>
    rcases ih (if h.priority < init.priority then h else init) with heq | hmem
    · rw [List.foldl_cons, heq]
      split
      · exact Or.inr (List.mem_cons_self h t)
      · exact Or.inl rfl
    · exact Or.inr (List.mem_cons_of_mem _ (by rw [List.foldl_cons]; exact hmem))

theorem foldl_min_le (l : List SkillDecisionTree) (init : SkillDecisionTree) :
    (l.foldl (fun best n => if n.priority < best.priority then n else best) init).priority
        ≤ init.priority
      ∧ ∀ x ∈ l,
        (l.foldl (fun best n => if n.priority < best.priority then n else best) init).priority
          ≤ x.priority := by
  induction l generalizing init with
  | nil => exact ⟨le_refl _, by simp⟩
  | cons h t ih =>
    obtain ⟨h1, h2⟩ := ih (if h.priority < init.priority then h else init)
    have hstep : (if h.priority < init.priority then h else init).priority ≤ init.priority ∧
        (if h.priority < init.priority then h else init).priority ≤ h.priority := by
      split <;> omega
    refine ⟨le_trans h1 hstep.1, ?_⟩
    intro x hx
    rcases List.mem_cons.mp hx with rfl | hx
    · exact le_trans h1 hstep.2
    · exact h2 x hx

/-! ### `RestrictedBattleQueue` -/

/-- A `RestrictedBattleQueue` state: the ticket list, the parallel
`_add_status` permission bits, and `_p1` (which is `None` until the first
add).  The two actors' data is supplied by a fixed environment
`env : Player → CharData` (the invariant claims only involve
add/remove/peek/is_empty/copy, none of which mutate the actors). -/
structure RState where
  content : List Player
  status : List Bool
  p1 : Option Player
deriving DecidableEq, Repr

def r_empty : RState := ⟨[], [], none⟩

/-- `RestrictedBattleQueue.get_add_ability_count`: how many tickets of
`character` currently carry an eligible permission bit.  (The source
indexes `_add_status[i]` alongside `_content[i]`; under the alignment
invariant that is the zip of the two lists.) -/
def get_add_ability_count (s : RState) (p : Player) : Nat :=
  (s.content.zip s.status).countP (fun x => x.1 == p && x.2)

/-- `RestrictedBattleQueue.add`.  First-ever insertion of an actor (no
ticket of it currently in the queue) is accepted with an eligible bit;
otherwise the front ticket's bit decides: ineligible front drops the add
silently, an eligible front grants a bit that is eligible only when the
added actor is the front actor with fewer than two eligible tickets.
(The `match` fallback covers a status list shorter than the ticket list,
an `IndexError` in Python that the alignment invariant rules out.) -/
def r_add (s : RState) (p : Player) : RState :=
  let s1 := if s.p1 = none then { s with p1 := some p } else s
  if s1.content.countP (fun c => c == p) = 0 then
    { s1 with content := s1.content ++ [p], status := s1.status ++ [true] }
  else
    match s1.content, s1.status with
    | fc :: _, fs :: _ =>
      if fs then
        if fc = p then
          if 2 ≤ get_add_ability_count s1 fc then
            { s1 with content := s1.content ++ [p], status := s1.status ++ [false] }
          else
            { s1 with content := s1.content ++ [p], status := s1.status ++ [true] }
        else
          { s1 with content := s1.content ++ [p], status := s1.status ++ [false] }
      else s1
    | _, _ => s1

/-- `RestrictedBattleQueue._clean_queue`: clean the ticket list as the
base class does, then realign `_add_status` to the surviving suffix
(`self._add_status[-len(self._content):]`, or `[]` when nothing
survives). -/
def r_clean (env : Player → CharData) (s : RState) : RState :=
  let nc := s.content.dropWhile (fun p => available_actions (env p) == [])
  { s with content := nc, status := if nc.isEmpty then [] else s.status.drop (s.status.length - nc.length) }

/-- `RestrictedBattleQueue.remove`: clean, then pop the front ticket and
its permission bit together. -/
def r_remove (env : Player → CharData) (s : RState) : RState :=
  let c := r_clean env s
  { c with content := c.content.tail, status := c.status.tail }

/-- `RestrictedBattleQueue.copy`: clone the two actors and replay the
ticket sequence through the restricted `add` (after the bootstrap
add/remove of the `_p1` clone), so permission bits are recomputed rather
than copied.  A copy of a queue that never had a player is an
`AttributeError` in Python (`None.copy`); it is modelled as the empty
clone. -/
def r_copy (env : Player → CharData) (s : RState) : RState :=
  match s.p1 with
  | none => r_empty
  | some p =>
    let n1 := r_add r_empty p
    let n1c := r_clean env n1
    let n2 := if n1c.content.isEmpty then n1c else r_remove env n1c
    s.content.foldl (fun acc t => r_add acc (if t = p then p else otherP p)) n2

/-- The states reachable from the empty restricted queue by any sequence
of `add` / `remove` / `peek` / `is_empty` / `copy` (both observers act on
the state only through `_clean_queue`). -/
inductive RReachable (env : Player → CharData) : RState → Prop where
  | init : RReachable env r_empty
  | add (p : Player) (s : RState) : RReachable env s → RReachable env (r_add s p)
  | remove (s : RState) : RReachable env s → RReachable env (r_remove env s)
  | clean (s : RState) : RReachable env s → RReachable env (r_clean env s)
  | copy (s : RState) : RReachable env s → RReachable env (r_copy env s)

/-- The invariant: permission bits stay aligned with tickets, and no
actor ever holds more than two eligible tickets. -/
def RInv (s : RState) : Prop :=
  s.content.length = s.status.length ∧ ∀ p, get_add_ability_count s p ≤ 2

theorem rinv_empty : RInv r_empty := ⟨rfl, fun p => by simp [get_add_ability_count, r_empty]⟩

theorem count_le_countP :
    ∀ (c : List Player) (st : List Bool) (p : Player),
      (c.zip st).countP (fun x => x.1 == p && x.2) ≤ c.countP (fun x => x == p) := by
  intro c
  induction c with
  | nil => intro st p; simp [List.countP_nil]
  | cons h t ih =>
    intro st p
    cases st with
    | nil => simp [List.countP_nil, List.countP_cons]
    | cons b bs =>
      rw [List.zip_cons_cons, List.countP_cons, List.countP_cons]
      have hih := ih bs p
      have h1 : (if ((h, b).1 == p && (h, b).2) = true then 1 else 0)
          ≤ (if (h == p) = true then 1 else 0) := by
        by_cases hp : (h == p) = true <;> by_cases hb : b = true <;> simp [hp, hb]
      omega

theorem count_append_pair (c : List Player) (st : List Bool) (h : c.length = st.length)
    (p q : Player) (b : Bool) :
    ((c ++ [q]).zip (st ++ [b])).countP (fun x => x.1 == p && x.2)
      = (c.zip st).countP (fun x => x.1 == p && x.2)
        + (if (q == p && b) = true then 1 else 0) := by
  rw [List.zip_append h, List.countP_append]
  simp [List.countP_cons]

theorem rinv_p1set (s : RState) (x : Option Player) (h : RInv s) :
    RInv { s with p1 := x } := h

theorem rinv_add (s : RState) (p : Player) (h : RInv s) : RInv (r_add s p) := by
  rw [r_add]
  have hbase : RInv (if s.p1 = none then { s with p1 := some p } else s) := by
    split
    · exact rinv_p1set s _ h
    · exact h
  obtain ⟨s1, hs1⟩ : ∃ x, x = (if s.p1 = none then { s with p1 := some p } else s) := ⟨_, rfl⟩
  rw [← hs1]
  rw [← hs1] at hbase
  obtain ⟨hlen, hcnt⟩ := hbase
  by_cases h0 : s1.content.countP (fun c => c == p) = 0
  · rw [if_pos h0]
    refine ⟨by simp [hlen], ?_⟩
    intro q
    simp only [get_add_ability_count]
    rw [count_append_pair _ _ hlen]
    by_cases hq : q = p
    · subst hq
      have hz : get_add_ability_count s1 q = 0 :=
        Nat.le_zero.mp (le_trans (count_le_countP _ _ _) (le_of_eq h0))
      rw [get_add_ability_count] at hz
      have hb : (if (q == q && true) = true then 1 else 0) ≤ 1 := by simp
      omega
    · have hqb : (p == q && true) = false := by
        simp only [Bool.and_true, beq_eq_false_iff_ne]
        intro hx
        exact hq hx.symm
      rw [hqb]
      simpa using hcnt q
  · rw [if_neg h0]
    rcases hc : s1.content with _ | ⟨fc, rest⟩
    · rw [hc] at h0
      simp [List.countP_nil] at h0
    · rcases hs : s1.status with _ | ⟨fs, bs⟩
      · exact ⟨hlen, hcnt⟩
      · rw [hc, hs] at hlen
        have hcnt2 : ∀ q, ((fc :: rest).zip (fs :: bs)).countP (fun x => x.1 == q && x.2)
            ≤ 2 := by
          intro q
          have hx := hcnt q
          rw [get_add_ability_count, hc, hs] at hx
          exact hx
        dsimp only
        by_cases hfs : fs = true
        · rw [if_pos hfs]
          by_cases hfc : fc = p
          · rw [if_pos hfc]
            by_cases h2 : 2 ≤ get_add_ability_count s1 fc
            · rw [if_pos h2]
              refine ⟨by simp only [List.length_cons, List.length_append, List.length_nil] at hlen ⊢; omega, ?_⟩
              intro q
              simp only [get_add_ability_count]
              rw [show fc :: rest ++ [p] = (fc :: rest) ++ [p] from rfl,
                show fs :: bs ++ [false] = (fs :: bs) ++ [false] from rfl,
                count_append_pair _ _ hlen]
              have hqb : (p == q && false) = false := by simp
              rw [hqb]
              simpa using hcnt2 q
            · rw [if_neg h2]
              refine ⟨by simp only [List.length_cons, List.length_append, List.length_nil] at hlen ⊢; omega, ?_⟩
              intro q
              simp only [get_add_ability_count]
              rw [show fc :: rest ++ [p] = (fc :: rest) ++ [p] from rfl,
                show fs :: bs ++ [true] = (fs :: bs) ++ [true] from rfl,
                count_append_pair _ _ hlen]
              by_cases hq : q = p
              · subst hq
                have h2b : get_add_ability_count s1 q ≤ 1 := by
                  rw [← hfc]
                  omega
                rw [get_add_ability_count, hc, hs] at h2b
                have hb : (if (q == q && true) = true then 1 else 0) ≤ 1 := by simp
                omega
              · have hqb : (p == q && true) = false := by
                  simp only [Bool.and_true, beq_eq_false_iff_ne]
                  intro hx
                  exact hq hx.symm
                rw [hqb]
                simpa using hcnt2 q
          · rw [if_neg hfc]
            refine ⟨by simp only [List.length_cons, List.length_append, List.length_nil] at hlen ⊢; omega, ?_⟩
            intro q
            simp only [get_add_ability_count]
            rw [show fc :: rest ++ [p] = (fc :: rest) ++ [p] from rfl,
              show fs :: bs ++ [false] = (fs :: bs) ++ [false] from rfl,
              count_append_pair _ _ hlen]
            have hqb : (p == q && false) = false := by simp
            rw [hqb]
            simpa using hcnt2 q
        · rw [if_neg hfs]
          refine ⟨?_, hcnt⟩
          rw [hc, hs]
          exact hlen

theorem length_takeWhile_le (q : α → Bool) : ∀ l : List α, (l.takeWhile q).length ≤ l.length := by
  intro l
  induction l with
  | nil => simp
  | cons h t ih =>
    rw [List.takeWhile_cons]
    split
    · simpa using ih
    · simp

theorem dropWhile_eq_drop (q : α → Bool) :
    ∀ l : List α, l.dropWhile q = l.drop ((l.takeWhile q).length) := by
  intro l
  induction l with
  | nil => rfl
  | cons h t ih =>
    rw [List.dropWhile_cons, List.takeWhile_cons]
    split
    · simpa using ih
    · simp

theorem zip_drop_eq :
    ∀ (k : Nat) (c : List Player) (st : List Bool),
      (c.drop k).zip (st.drop k) = (c.zip st).drop k := by
  intro k
  induction k with
  | zero => intro c st; rfl
  | succ n ih =>
    intro c st
    cases c with
    | nil => simp
    | cons hc tc =>
      cases st with
      | nil => simp
      | cons hs ts =>
        rw [List.drop_succ_cons, List.drop_succ_cons, List.zip_cons_cons,
          List.drop_succ_cons]
        exact ih tc ts

theorem countP_drop_le (pred : Player × Bool → Bool) (l : List (Player × Bool)) (k : Nat) :
    (l.drop k).countP pred ≤ l.countP pred := by
  conv_rhs => rw [← List.take_append_drop k l]
  rw [List.countP_append]
  omega

theorem rinv_clean (env : Player → CharData) (s : RState) (h : RInv s) :
    RInv (r_clean env s) := by
  obtain ⟨hlen, hcnt⟩ := h
  rw [r_clean]
  have hdw := dropWhile_eq_drop (fun p => available_actions (env p) == []) s.content
  have htw := length_takeWhile_le (fun p => available_actions (env p) == []) s.content
  by_cases hempty : (s.content.dropWhile (fun p => available_actions (env p) == [])).isEmpty
  · refine ⟨?_, ?_⟩
    · simp only [hempty, if_true]
      rw [List.isEmpty_iff] at hempty
      rw [hempty]
      rfl
    · intro q
      simp only [get_add_ability_count, hempty, if_true]
      rw [List.isEmpty_iff] at hempty
      rw [hempty]
      simp [List.countP_nil]
  · have hemp2 : (s.content.dropWhile (fun p => available_actions (env p) == [])).isEmpty = false := by
      revert hempty
      cases (s.content.dropWhile (fun p => available_actions (env p) == [])).isEmpty <;> simp
    refine ⟨?_, ?_⟩
    · simp only [hemp2, Bool.false_eq_true, if_false]
      rw [hdw, List.length_drop, List.length_drop]
      omega
    · intro q
      simp only [get_add_ability_count, hemp2, Bool.false_eq_true, if_false]
      rw [hdw, List.length_drop]
      rw [show s.status.length - (s.content.length - (s.content.takeWhile
        (fun p => available_actions (env p) == [])).length)
        = (s.content.takeWhile (fun p => available_actions (env p) == [])).length by omega]
      rw [zip_drop_eq]
      exact le_trans (countP_drop_le _ _ _) (hcnt q)

theorem rinv_remove (env : Player → CharData) (s : RState) (h : RInv s) :
    RInv (r_remove env s) := by
  obtain ⟨hlen, hcnt⟩ := rinv_clean env s h
  rw [r_remove]
  refine ⟨by simp [List.length_tail, hlen], ?_⟩
  intro q
  simp only [get_add_ability_count]
  rw [← List.drop_one, ← List.drop_one, zip_drop_eq]
  exact le_trans (countP_drop_le _ _ _) (hcnt q)

theorem rinv_foldl_add (g : Player → Player) (l : List Player) :
    ∀ acc, RInv acc → RInv (l.foldl (fun a t => r_add a (g t)) acc) := by
  induction l with
  | nil => intro acc h; exact h
  | cons x xs ih =>
    intro acc h
    rw [List.foldl_cons]
    exact ih _ (rinv_add acc (g x) h)

theorem rinv_copy (env : Player → CharData) (s : RState) (_h : RInv s) :
    RInv (r_copy env s) := by
  rw [r_copy]
  cases s.p1 with
  | none => exact rinv_empty
  | some p =>
    apply rinv_foldl_add
    have h1 : RInv (r_add r_empty p) := rinv_add _ _ rinv_empty
    have h2 : RInv (r_clean env (r_add r_empty p)) := rinv_clean _ _ h1
    split
    · exact h2
    · exact rinv_remove _ _ h2

theorem rreachable_inv (env : Player → CharData) (s : RState) (h : RReachable env s) :
    RInv s := by
  induction h with
  | init => exact rinv_empty
  | add p s _ ih => exact rinv_add s p ih
  | remove s _ ih => exact rinv_remove env s ih
  | clean s _ ih => exact rinv_clean env s ih
  | copy s _ ih => exact rinv_copy env s ih

/-! ### A raw `BattleQueue` with unassigned players (for `peek` on a
never-populated queue) -/

/-- A `BattleQueue` as `__init__` leaves it: `_content = []` and
`_p1 = _p2 = None` until the first `add`. -/
structure RawBQ where
  content : List Player
  p1 : Option Player
  p2 : Option Player
deriving DecidableEq, Repr

/-- `BattleQueue.__init__`. -/
def raw_init : RawBQ := ⟨[], none, none⟩

/-- `BattleQueue.add` on the raw queue: append the ticket and capture
`_p1`/`_p2` on the first add. -/
def raw_add (q : RawBQ) (p : Player) : RawBQ :=
  if q.p1 = none then
    { q with content := q.content ++ [p], p1 := some p, p2 := some (otherP p) }
  else
    { q with content := q.content ++ [p] }

/-- `BattleQueue._clean_queue` on the raw queue (actor data supplied by a
fixed environment). -/
def raw_clean (env : Player → CharData) (q : RawBQ) : RawBQ :=
  { q with content := q.content.dropWhile (fun p => available_actions (env p) == []) }

/-- `BattleQueue.peek` on the raw queue: clean, then the front ticket's
holder, falling back to `_p1` — which is `None` when no character was ever
added. -/
def raw_peek (env : Player → CharData) (q : RawBQ) : Option Player :=
  match (raw_clean env q).content with
  | x :: _ => some x
  | [] => q.p1

/-! ### Heap model: character objects in an explicit arena

The frame claims (copy independence, purity of the search) are about
object identity and aliasing, which value semantics cannot express.  In
this model every character object is a cell in a `World` arena, referenced
by its index; the `enemy` relation is a cell field holding the opponent's
index, and a queue holds cell indices.  `copy` allocates fresh cells, and
an attack writes the caster's and the target's cells in place. -/

structure HChar where
  kind : CharKind
  hp : Nat
  sp : Nat
  enemy : Nat
deriving DecidableEq, Repr

abbrev World := List HChar

structure HQueue where
  content : List Nat
  p1 : Option Nat
  p2 : Option Nat
deriving DecidableEq, Repr

def junk_char : HChar := ⟨CharKind.rogue, 0, 0, 0⟩

/-- Dereference a character cell (out-of-range reads are Python crashes,
modelled by a junk cell; the modelled flows never perform them). -/
def hchar (w : World) (r : Nat) : HChar := (w[r]?).getD junk_char

def hdata (h : HChar) : CharData := ⟨h.kind, h.hp, h.sp⟩

def havail (w : World) (r : Nat) : List Move := available_actions (hdata (hchar w r))

def hclean (w : World) (q : HQueue) : HQueue :=
  { q with content := q.content.dropWhile (fun r => havail w r == []) }

def hpeek (w : World) (q : HQueue) : Nat :=
  (((hclean w q).content.head?)).getD (q.p1.getD 0)

def his_empty (w : World) (q : HQueue) : Bool := (hclean w q).content.isEmpty

def his_over (w : World) (q : HQueue) : Bool :=
  his_empty w q || (hchar w (q.p1.getD 0)).hp == 0 || (hchar w (q.p2.getD 0)).hp == 0

def hwinner (w : World) (q : HQueue) : Option Nat :=
  if !his_over w q then none
  else if (hchar w (q.p1.getD 0)).hp == 0 then q.p2
  else if (hchar w (q.p2.getD 0)).hp == 0 then q.p1
  else none

def hremove (w : World) (q : HQueue) : HQueue :=
  let c := hclean w q
  { c with content := c.content.tail }

/-- `BattleQueue.add` in the heap model: append the ticket, capturing
`_p1`/`_p2` (the enemy read off the added character's cell) on first
add. -/
def hadd (w : World) (q : HQueue) (r : Nat) : HQueue :=
  if q.p1 = none then
    { q with content := q.content ++ [r], p1 := some r, p2 := some (hchar w r).enemy }
  else
    { q with content := q.content ++ [r] }

/-- `BattleQueue.copy` in the heap model: allocate fresh cells for the
clones of `_p1` and `_p2` (mutually linked as enemies), bootstrap the new
queue's player fields with an add (removed again unless cleaning already
purged it), then re-add the clone corresponding to each original
ticket. -/
def hcopy (w : World) (q : HQueue) : World × HQueue :=
  let n := w.length
  let c1 := hchar w (q.p1.getD 0)
  let c2 := hchar w (q.p2.getD 0)
  let w1 := w ++ [{ c1 with enemy := n + 1 }, { c2 with enemy := n }]
  let q1 := hadd w1 ⟨[], none, none⟩ n
  let q1c := hclean w1 q1
  let q2 := if q1c.content.isEmpty then q1c else hremove w1 q1c
  let qf := q.content.foldl (fun acc t => hadd w1 acc (if some t = q.p1 then n else n + 1)) q2
  (w1, qf)

def hset (w : World) (r : Nat) (c : HChar) : World := w.set r c

/-- `Character.reduce_sp` on a cell. -/
def hreduce_sp (w : World) (r : Nat) (cost : Nat) : World :=
  hset w r { hchar w r with sp := (hchar w r).sp - cost }

/-- `Character.apply_damage` on a cell. -/
def happly_damage (w : World) (r : Nat) (dmg : Nat) : World :=
  hset w r { hchar w r with hp := (hchar w r).hp - (dmg - defense (hchar w r).kind) }

/-- `Skill._deal_damage`: reduce the caster's SP, damage the caster's
enemy. -/
def hdeal_damage (w : World) (caster : Nat) (cost dmg : Nat) : World :=
  happly_damage (hreduce_sp w caster cost) (hchar w caster).enemy dmg

/-- `Character.attack()` in the heap model (normal attack: deal damage,
enqueue the caster on the caster's bound queue — the threaded one). -/
def hattack (w : World) (q : HQueue) (caster : Nat) : World × HQueue :=
  let k := (hchar w caster).kind
  let w1 := hdeal_damage w caster (attack_cost k) (attack_damage k)
  (w1, hadd w1 q caster)

/-- `Character.special_attack()` in the heap model. -/
def hspecial (w : World) (q : HQueue) (caster : Nat) : World × HQueue :=
  match (hchar w caster).kind with
  | CharKind.mage =>
    let w1 := hdeal_damage w caster 30 40
    (w1, hadd w1 (hadd w1 q (hchar w caster).enemy) caster)
  | CharKind.rogue =>
    let w1 := hdeal_damage w caster 10 20
    (w1, hadd w1 (hadd w1 q caster) caster)

def happly_move (a : Move) (w : World) (q : HQueue) (caster : Nat) : World × HQueue :=
  if a = Move.A then hattack w q caster else hspecial w q caster

def hsp_sum (w : World) (q : HQueue) : Nat :=
  (hchar w (q.p1.getD 0)).sp + (hchar w (q.p2.getD 0)).sp

def hterminal (w : World) (persp : Nat) (q : HQueue) : Int :=
  match hwinner w q with
  | some wr => if persp = wr then ((hchar w wr).hp : Int) else -((hchar w wr).hp : Int)
  | none => 0

/-- `get_state_score_player` in the heap model, threading the world and
collecting the branch scores in source order. -/
def hstate_score_fuel : Nat → World → Nat → HQueue → World × Int
  | 0, w, _, _ => (w, 0)
  | f + 1, w, persp, bq =>
    if his_over w bq then (w, hterminal w persp bq)
    else
      let res := (havail w (hpeek w bq)).foldl (fun (acc : World × List Int) a =>
        let w0 := acc.1
        let pr := hcopy w0 bq
        let w1 := pr.1
        let temp := pr.2
        let cur := hpeek w1 temp
        let mapped := if persp = hpeek w1 bq then cur else (hchar w1 cur).enemy
        let step := happly_move a w1 temp cur
        let w2 := step.1
        let t1 := step.2
        let t2 := if havail w2 cur ≠ [] then hremove w2 t1 else t1
        let rec2 := hstate_score_fuel f w2 mapped t2
        (rec2.1, acc.2 ++ [rec2.2])) (w, ([] : List Int))
      (res.1, max_list res.2)

/-- `get_state_score` in the heap model: copy the queue, peek the copy,
score from the copy's front actor at a sufficient fuel. -/
def hget_state_score (w : World) (bq : HQueue) : World × Int :=
  let pr := hcopy w bq
  let w1 := pr.1
  let new_bq := pr.2
  hstate_score_fuel (hsp_sum w1 new_bq + 1) w1 (hpeek w1 new_bq) (hclean w1 new_bq)

/-- `MinimaxRecursivePlaystyle.select_attack` in the heap model; returns
the final world, the playstyle's queue as the call leaves it (`peek`
cleans it), and the chosen action. -/
def hselect_rec (w : World) (q : HQueue) : World × HQueue × Move :=
  let q1 := hclean w q
  let front := (q1.content.head?).getD (q.p1.getD 0)
  let acts := havail w front
  if acts.isEmpty then (w, q1, Move.X)
  else
    let res := acts.foldl (fun (acc : World × Int × Int × Int) a =>
      let w0 := acc.1
      let pr := hcopy w0 q1
      let w1 := pr.1
      let temp := pr.2
      let hs := hget_state_score w1 temp
      let w2 := hs.1
      let cur := hpeek w2 temp
      let step := happly_move a w2 temp cur
      let w3 := step.1
      let t1 := step.2
      let t2 := if havail w3 cur ≠ [] then hremove w3 t1 else t1
      let sc := hstate_score_fuel (hsp_sum w3 t2 + 1) w3 cur t2
      if a = Move.A then (sc.1, hs.2, sc.2, acc.2.2.2) else (sc.1, hs.2, acc.2.2.1, sc.2))
      (w, neg_maxsize, neg_maxsize, neg_maxsize)
    (res.1, q1,
      if res.2.1 = res.2.2.1 then Move.A
      else if res.2.1 = res.2.2.2 then Move.S
      else Move.X)

/-- `GameStateNode` in the heap model. -/
structure HNode where
  battle_queue : HQueue
  current_player : Nat
  action_taken : Move
  highest_score : Option Int
  children : Option (List Nat)
deriving DecidableEq, Repr

/-- `get_children_nodes` in the heap model. -/
def hget_children (w : World) (nd : HNode) : World × List HNode :=
  let pr := hcopy w nd.battle_queue
  let w1 := pr.1
  let bqc := hclean w1 pr.2
  let front := (bqc.content.head?).getD (pr.2.p1.getD 0)
  (havail w1 front).foldl (fun (acc : World × List HNode) a =>
    let w0 := acc.1
    let pr2 := hcopy w0 bqc
    let w2 := pr2.1
    let temp := pr2.2
    let cur := hpeek w2 temp
    let orig := if nd.current_player = hpeek w2 nd.battle_queue then cur
      else (hchar w2 cur).enemy
    let step := happly_move a w2 temp cur
    let w3 := step.1
    let t1 := step.2
    let t2 := if havail w3 cur ≠ [] then hremove w3 t1 else t1
    (w3, acc.2 ++ [⟨t2, orig, a, none, none⟩])) (w1, [])

/-- One iteration of the iterative loop in the heap model. -/
def hminimax_step (w : World) (ns : List HNode) (i : Nat) :
    World × List HNode × List Nat :=
  match ns[i]? with
  | none => (w, ns, [])
  | some nd =>
    if his_over w nd.battle_queue = false ∧ nd.children = none then
      let pr := hget_children w nd
      let cs := pr.2
      let ids := List.range' ns.length cs.length
      (pr.1, (ns.set i { nd with children := some ids }) ++ cs, ids.reverse ++ [i])
    else if his_over w nd.battle_queue = false ∧ nd.children ≠ none
        ∧ nd.children ≠ some [] then
      let ids := nd.children.getD []
      let sc := max_list (ids.map (fun j => ((ns[j]?).bind HNode.highest_score).getD 0))
      (w, ns.set i { nd with highest_score := some sc }, [])
    else
      (w, ns.set i
        { nd with highest_score := some (hterminal w nd.current_player nd.battle_queue) }, [])

def hminimax_loop : Nat → World → List HNode → List Nat → World × List HNode
  | 0, w, ns, _ => (w, ns)
  | _ + 1, w, ns, [] => (w, ns)
  | f + 1, w, ns, i :: rest =>
    hminimax_loop f (hminimax_step w ns i).1 (hminimax_step w ns i).2.1
      ((hminimax_step w ns i).2.2 ++ rest)

/-- `MinimaxIterativePlaystyle.select_attack` in the heap model (returned
queue and world as in `hselect_rec`; the `none` result models the
`TypeError` on an unexpanded root). -/
def hselect_iter (w : World) (q : HQueue) : World × HQueue × Option Move :=
  let q1 := hclean w q
  let front := (q1.content.head?).getD (q.p1.getD 0)
  let acts := havail w front
  if acts.isEmpty then (w, q1, some Move.X)
  else
    let pr := hcopy w q1
    let w1 := pr.1
    let bq := pr.2
    let root : HNode := ⟨bq, hpeek w1 bq, Move.X, none, none⟩
    let res := hminimax_loop (2 ^ (hsp_sum w1 bq + 2)) w1 [root] [0]
    let w2 := res.1
    let ns := res.2
    match ns[0]? with
    | none => (w2, q1, none)
    | some rn =>
      match rn.children with
      | none => (w2, q1, none)
      | some ids =>
        let rootScore := rn.highest_score.getD 0
        match ids.find?
            (fun j => (((ns[j]?).bind HNode.highest_score).getD 0) == rootScore) with
        | some j => (w2, q1, some (((ns[j]?).map HNode.action_taken).getD Move.X))
        | none => (w2, q1, some Move.X)

/-! ### Frame lemmas: the search writes only freshly allocated cells -/

/-- `w2` extends `w`: at least as long, with every original cell intact. -/
def HExt (w w2 : World) : Prop :=
  w.length ≤ w2.length ∧ ∀ i, i < w.length → w2[i]? = w[i]?

theorem hext_refl (w : World) : HExt w w := ⟨le_refl _, fun _ _ => rfl⟩

theorem hext_trans {w w1 w2 : World} (h1 : HExt w w1) (h2 : HExt w1 w2) : HExt w w2 :=
  ⟨le_trans h1.1 h2.1, fun i hi => (h2.2 i (lt_of_lt_of_le hi h1.1)).trans (h1.2 i hi)⟩

theorem hext_append (w : World) (l : List HChar) : HExt w (w ++ l) := by
  refine ⟨by simp, ?_⟩
  intro i hi
  rw [List.getElem?_append, if_pos hi]

theorem hext_set {w w1 : World} (r : Nat) (c : HChar) (h : HExt w w1)
    (hr : w.length ≤ r) : HExt w (w1.set r c) := by
  refine ⟨by simp [h.1], ?_⟩
  intro i hi
  rw [List.getElem?_set, if_neg (by omega)]
  exact h.2 i hi

theorem hchar_hext {w w2 : World} (h : HExt w w2) (i : Nat) (hi : i < w.length) :
    hchar w2 i = hchar w i := by
  rw [hchar, hchar, h.2 i hi]

theorem hext_deal {w w1 : World} (caster cost dmg : Nat) (h : HExt w w1)
    (hc : w.length ≤ caster) (he : w.length ≤ (hchar w1 caster).enemy) :
    HExt w (hdeal_damage w1 caster cost dmg) := by
  rw [hdeal_damage, happly_damage, hreduce_sp]
  exact hext_set _ _ (hext_set _ _ h hc) he

theorem hext_apply_move {w w1 : World} (a : Move) (q : HQueue) (caster : Nat)
    (h : HExt w w1) (hc : w.length ≤ caster)
    (he : w.length ≤ (hchar w1 caster).enemy) :
    HExt w (happly_move a w1 q caster).1 := by
  rw [happly_move]
  split
  · exact hext_deal _ _ _ h hc he
  · rw [hspecial]
    cases hk : (hchar w1 caster).kind
    · exact hext_deal _ _ _ h hc he
    · exact hext_deal _ _ _ h hc he

theorem hadd_p1 (w : World) (q : HQueue) (r : Nat) :
    (hadd w q r).p1 = if q.p1 = none then some r else q.p1 := by
  rw [hadd]
  split <;> simp_all

theorem hadd_content (w : World) (q : HQueue) (r : Nat) :
    (hadd w q r).content = q.content ++ [r] := by
  rw [hadd]
  split <;> rfl

theorem foldl_hadd_p1 (w : World) (g : Nat → Nat) (l : List Nat) :
    ∀ acc : HQueue, acc.p1 ≠ none →
      (l.foldl (fun a t => hadd w a (g t)) acc).p1 = acc.p1 := by
  induction l with
  | nil => intro acc _; rfl
  | cons x xs ih =>
    intro acc hacc
    rw [List.foldl_cons]
    rw [ih (hadd w acc (g x)) (by rw [hadd_p1]; split <;> simp_all), hadd_p1,
      if_neg hacc]

theorem foldl_hadd_content_mem (w : World) (g : Nat → Nat) (P : Nat → Prop)
    (l : List Nat) (hg : ∀ t, P (g t)) :
    ∀ acc : HQueue, (∀ x ∈ acc.content, P x) →
      ∀ x ∈ (l.foldl (fun a t => hadd w a (g t)) acc).content, P x := by
  induction l with
  | nil => intro acc hacc; exact hacc
  | cons y ys ih =>
    intro acc hacc
    rw [List.foldl_cons]
    apply ih
    intro x hx
    rw [hadd_content] at hx
    rcases List.mem_append.mp hx with hx | hx
    · exact hacc x hx
    · rw [List.mem_singleton.mp hx]
      exact hg y

theorem hcopy_fst (w : World) (q : HQueue) :
    (hcopy w q).1 = w ++ [{ hchar w (q.p1.getD 0) with enemy := w.length + 1 },
      { hchar w (q.p2.getD 0) with enemy := w.length }] := rfl

theorem hext_copy (w : World) (q : HQueue) : HExt w (hcopy w q).1 := by
  rw [hcopy_fst]
  exact hext_append _ _


/-- The world component of `hcopy`, as a standalone function. -/
def hcopy_world (w : World) (q : HQueue) : World :=
  w ++ [{ hchar w (q.p1.getD 0) with enemy := w.length + 1 }, { hchar w (q.p2.getD 0) with enemy := w.length }]

/-- The bootstrap queue inside `hcopy` (after the add/clean/remove dance). -/
def hcopy_boot (w : World) (q : HQueue) : HQueue :=
  let w1 := hcopy_world w q
  let q1c := hclean w1 (hadd w1 ⟨[], none, none⟩ w.length)
  if q1c.content.isEmpty then q1c else hremove w1 q1c

theorem hcopy_eq (w : World) (q : HQueue) :
    hcopy w q = (hcopy_world w q,
      q.content.foldl
        (fun acc t => hadd (hcopy_world w q) acc (if some t = q.p1 then w.length else w.length + 1))
        (hcopy_boot w q)) := rfl

theorem hcopy_boot_p1 (w : World) (q : HQueue) : (hcopy_boot w q).p1 = some w.length := by
  rw [hcopy_boot]
  have hq1 : hadd (hcopy_world w q) ⟨[], none, none⟩ w.length =
      ⟨[w.length], some w.length, some (hchar (hcopy_world w q) w.length).enemy⟩ := by
    rw [hadd]; rfl
  rw [hq1]
  split
  · rfl
  · rfl

theorem hcopy_boot_content (w : World) (q : HQueue) :
    (hcopy_boot w q).content ⊆ [w.length] := by
  rw [hcopy_boot]
  have hq1 : hadd (hcopy_world w q) ⟨[], none, none⟩ w.length =
      ⟨[w.length], some w.length, some (hchar (hcopy_world w q) w.length).enemy⟩ := by
    rw [hadd]; rfl
  rw [hq1]
  split
  · intro y hy
    have := (List.dropWhile_sublist _).subset hy
    simpa [hclean] using this
  · intro y hy
    rw [hremove] at hy
    have h1 := List.tail_subset _ hy
    have h2 := (List.dropWhile_sublist _).subset h1
    have h3 := (List.dropWhile_sublist _).subset h2
    simpa [hclean] using h3

theorem hcopy_snd_p1 (w : World) (q : HQueue) : (hcopy w q).2.p1 = some w.length := by
  rw [hcopy_eq]
  dsimp only
  rw [foldl_hadd_p1 (hcopy_world w q) (fun t => if some t = q.p1 then w.length else w.length + 1)
    q.content (hcopy_boot w q) (by rw [hcopy_boot_p1]; exact Option.noConfusion)]
  exact hcopy_boot_p1 w q

theorem hcopy_snd_content_mem (w : World) (q : HQueue) :
    ∀ x ∈ (hcopy w q).2.content, x = w.length ∨ x = w.length + 1 := by
  rw [hcopy_eq]
  dsimp only
  apply foldl_hadd_content_mem (hcopy_world w q)
    (fun t => if some t = q.p1 then w.length else w.length + 1)
    (fun x => x = w.length ∨ x = w.length + 1)
  · intro t
    split
    · exact Or.inl rfl
    · exact Or.inr rfl
  · intro x hx
    exact Or.inl (List.mem_singleton.mp (hcopy_boot_content w q hx))

theorem hcopy_fst_eq (w : World) (q : HQueue) : (hcopy w q).1 = hcopy_world w q := rfl

theorem hcopy_fst_length (w : World) (q : HQueue) :
    (hcopy w q).1.length = w.length + 2 := by
  rw [hcopy_fst_eq, hcopy_world]
  simp

theorem hchar_copy_n (w : World) (q : HQueue) :
    hchar (hcopy w q).1 w.length = { hchar w (q.p1.getD 0) with enemy := w.length + 1 } := by
  rw [hcopy_fst_eq, hcopy_world, hchar, List.getElem?_append_right (le_refl _)]
  simp

theorem hchar_copy_n1 (w : World) (q : HQueue) :
    hchar (hcopy w q).1 (w.length + 1) = { hchar w (q.p2.getD 0) with enemy := w.length } := by
  rw [hcopy_fst_eq, hcopy_world, hchar, List.getElem?_append_right (by omega)]
  have h1 : w.length + 1 - w.length = 1 := by omega
  rw [h1]
  rfl

/-- The front actor of a freshly copied queue (peeked in any world) is one
of the two freshly allocated cells. -/
theorem hpeek_copy_mem (w w2 : World) (q : HQueue) :
    hpeek w2 (hcopy w q).2 = w.length ∨ hpeek w2 (hcopy w q).2 = w.length + 1 := by
  rw [hpeek]
  cases hh : (hclean w2 (hcopy w q).2).content.head? with
  | none =>
    rw [Option.getD_none, hcopy_snd_p1, Option.getD_some]
    exact Or.inl rfl
  | some x =>
    rw [Option.getD_some]
    have hx : x ∈ (hcopy w q).2.content := by
      have hm : x ∈ (hclean w2 (hcopy w q).2).content := List.mem_of_mem_head? (by simp [hh])
      rw [hclean] at hm
      exact (List.dropWhile_sublist _).subset hm
    exact hcopy_snd_content_mem w q x hx

/-- The cell a freshly copied queue's front actor calls its enemy is also
freshly allocated: the copy links the two clones to each other. -/
theorem hcopy_caster_enemy {w w2 : World} (q : HQueue) (h : HExt (hcopy w q).1 w2) :
    w.length ≤ (hchar w2 (hpeek w2 (hcopy w q).2)).enemy := by
  rcases hpeek_copy_mem w w2 q with hc | hc <;> rw [hc]
  · rw [hchar_hext h w.length (by rw [hcopy_fst_length]; omega), hchar_copy_n]
    exact Nat.le_succ _
  · rw [hchar_hext h (w.length + 1) (by rw [hcopy_fst_length]; omega), hchar_copy_n1]

theorem hpeek_copy_ge (w w2 : World) (q : HQueue) :
    w.length ≤ hpeek w2 (hcopy w q).2 := by
  rcases hpeek_copy_mem w w2 q with hc | hc <;> omega

/-- A fold whose every step extends the world extends the world. -/
theorem hext_foldl {σ γ : Type} (proj : σ → World) (step : σ → γ → σ)
    (hstep : ∀ acc a, HExt (proj acc) (proj (step acc a))) :
    ∀ (l : List γ) (init : σ), HExt (proj init) (proj (l.foldl step init)) := by
  intro l
  induction l with
  | nil => intro init; exact hext_refl _
  | cons x xs ih => intro init; exact hext_trans (hstep init x) (ih (step init x))

/-- The state scorer only writes freshly allocated cells: every character
cell existing before the call is untouched. -/
theorem hscore_fuel_hext :
    ∀ (f : Nat) (w : World) (persp : Nat) (bq : HQueue),
      HExt w (hstate_score_fuel f w persp bq).1 := by
  intro f
  induction f with
  | zero => intro w persp bq; exact hext_refl w
  | succ f ih =>
    intro w persp bq
    rw [hstate_score_fuel]
    split
    · exact hext_refl w
    · dsimp only
      refine hext_foldl Prod.fst _ ?_ _ (w, ([] : List Int))
      intro acc a
      dsimp only
      refine hext_trans (hext_apply_move a (hcopy acc.1 bq).2
        (hpeek (hcopy acc.1 bq).1 (hcopy acc.1 bq).2) (hext_copy acc.1 bq)
        (hpeek_copy_ge acc.1 (hcopy acc.1 bq).1 bq)
        (hcopy_caster_enemy bq (hext_refl (hcopy acc.1 bq).1))) ?_
      exact ih _ _ _

theorem hget_state_score_hext (w : World) (bq : HQueue) :
    HExt w (hget_state_score w bq).1 :=
  hext_trans (hext_copy w bq) (hscore_fuel_hext _ _ _ _)

/-- The recursive playstyle's search never writes a pre-existing cell. -/
theorem hselect_rec_hext (w : World) (q : HQueue) : HExt w (hselect_rec w q).1 := by
  rw [hselect_rec]
  dsimp only
  split
  · exact hext_refl w
  · refine hext_foldl Prod.fst _ ?_ _ (w, neg_maxsize, neg_maxsize, neg_maxsize)
    intro acc a
    dsimp only
    have h1 : HExt acc.1 (hget_state_score (hcopy acc.1 (hclean w q)).1
        (hcopy acc.1 (hclean w q)).2).1 :=
      hext_trans (hext_copy acc.1 (hclean w q)) (hget_state_score_hext _ _)
    have h2 : HExt acc.1 (happly_move a
        (hget_state_score (hcopy acc.1 (hclean w q)).1 (hcopy acc.1 (hclean w q)).2).1
        (hcopy acc.1 (hclean w q)).2
        (hpeek (hget_state_score (hcopy acc.1 (hclean w q)).1 (hcopy acc.1 (hclean w q)).2).1
          (hcopy acc.1 (hclean w q)).2)).1 :=
      hext_apply_move a (hcopy acc.1 (hclean w q)).2 _ h1
        (hpeek_copy_ge acc.1 _ (hclean w q))
        (hcopy_caster_enemy (hclean w q) (hget_state_score_hext _ _))
    split
    · exact hext_trans h2 (hscore_fuel_hext _ _ _ _)
    · exact hext_trans h2 (hscore_fuel_hext _ _ _ _)

/-- The recursive playstyle returns with its queue lazily cleaned (the
`peek` at the top mutates the source's ticket list) and nothing else. -/
theorem hselect_rec_queue (w : World) (q : HQueue) :
    (hselect_rec w q).2.1 = hclean w q := by
  rw [hselect_rec]
  dsimp only
  split
  · rfl
  · rfl

theorem hget_children_hext (w : World) (nd : HNode) :
    HExt w (hget_children w nd).1 := by
  rw [hget_children]
  dsimp only
  refine hext_trans (hext_copy w nd.battle_queue) ?_
  refine hext_foldl Prod.fst _ ?_ _ ((hcopy w nd.battle_queue).1, [])
  intro acc a
  dsimp only
  exact hext_apply_move a _ _ (hext_copy acc.1 _)
    (hpeek_copy_ge acc.1 _ _)
    (hcopy_caster_enemy _ (hext_refl _))

theorem hminimax_step_hext (w : World) (ns : List HNode) (i : Nat) :
    HExt w (hminimax_step w ns i).1 := by
  rw [hminimax_step]
  split
  · exact hext_refl w
  · split
    · exact hget_children_hext w _
    · split
      · exact hext_refl w
      · exact hext_refl w

theorem hminimax_loop_hext :
    ∀ (f : Nat) (w : World) (ns : List HNode) (st : List Nat),
      HExt w (hminimax_loop f w ns st).1 := by
  intro f
  induction f with
  | zero => intro w ns st; exact hext_refl w
  | succ f ih =>
    intro w ns st
    cases st with
    | nil => exact hext_refl w
    | cons i rest =>
      rw [hminimax_loop]
      exact hext_trans (hminimax_step_hext w ns i) (ih _ _ _)

/-- The iterative playstyle's search never writes a pre-existing cell. -/
theorem hselect_iter_hext (w : World) (q : HQueue) : HExt w (hselect_iter w q).1 := by
  rw [hselect_iter]
  dsimp only
  split
  · exact hext_refl w
  · have hl : HExt w (hminimax_loop (2 ^ (hsp_sum (hcopy w (hclean w q)).1 (hcopy w (hclean w q)).2 + 2))
        (hcopy w (hclean w q)).1
        [⟨(hcopy w (hclean w q)).2, hpeek (hcopy w (hclean w q)).1 (hcopy w (hclean w q)).2,
          Move.X, none, none⟩] [0]).1 :=
      hext_trans (hext_copy w (hclean w q)) (hminimax_loop_hext _ _ _ _)
    split
    · exact hl
    · split
      · exact hl
      · split
        · exact hl
        · exact hl

/-- The iterative playstyle, too, returns with its queue lazily cleaned. -/
theorem hselect_iter_queue (w : World) (q : HQueue) :
    (hselect_iter w q).2.1 = hclean w q := by
  rw [hselect_iter]
  dsimp only
  split
  · rfl
  · split
    · rfl
    · split
      · rfl
      · split
        · rfl
        · rfl

/-! ### Copy independence (C9): mutating the clone graph -/

theorem hchar_set_other (w : World) (r : Nat) (c : HChar) (j : Nat) (hj : r ≠ j) :
    hchar (w.set r c) j = hchar w j := by
  rw [hchar, hchar, List.getElem?_set, if_neg hj]

theorem hchar_set_self (w : World) (r : Nat) (c : HChar) (hr : r < w.length) :
    hchar (w.set r c) r = c := by
  rw [hchar, List.getElem?_set, if_pos rfl, if_pos hr, Option.getD_some]

theorem hadd_p2 (w : World) (q : HQueue) (r : Nat) :
    (hadd w q r).p2 = if q.p1 = none then some (hchar w r).enemy else q.p2 := by
  rw [hadd]
  split <;> simp_all

theorem foldl_hadd_p2 (w : World) (g : Nat → Nat) (l : List Nat) :
    ∀ acc : HQueue, acc.p1 ≠ none →
      (l.foldl (fun a t => hadd w a (g t)) acc).p2 = acc.p2 := by
  induction l with
  | nil => intro acc _; rfl
  | cons x xs ih =>
    intro acc hacc
    rw [List.foldl_cons]
    rw [ih (hadd w acc (g x)) (by rw [hadd_p1]; split <;> simp_all), hadd_p2,
      if_neg hacc]

theorem hcopy_boot_p2 (w : World) (q : HQueue) :
    (hcopy_boot w q).p2 = some (w.length + 1) := by
  rw [hcopy_boot]
  have hq1 : hadd (hcopy_world w q) ⟨[], none, none⟩ w.length =
      ⟨[w.length], some w.length, some (hchar (hcopy_world w q) w.length).enemy⟩ := by
    rw [hadd]; rfl
  have he : (hchar (hcopy_world w q) w.length).enemy = w.length + 1 := by
    have := hchar_copy_n w q
    rw [hcopy_fst_eq] at this
    rw [this]
  rw [hq1, he]
  split
  · rfl
  · rfl

theorem hcopy_snd_p2 (w : World) (q : HQueue) :
    (hcopy w q).2.p2 = some (w.length + 1) := by
  rw [hcopy_eq]
  dsimp only
  rw [foldl_hadd_p2 (hcopy_world w q) (fun t => if some t = q.p1 then w.length else w.length + 1)
    q.content (hcopy_boot w q) (by rw [hcopy_boot_p1]; exact Option.noConfusion)]
  exact hcopy_boot_p2 w q

/-- A mutation of the clone: its clones attack, or its tickets are added
or removed (the Boolean picks the clone of `_p1` or of `_p2`). -/
inductive HOp where
  | attack : Bool → HOp
  | special : Bool → HOp
  | addTicket : Bool → HOp
  | removeTicket : HOp
  | peekClean : HOp
deriving DecidableEq, Repr

def hop_caster (q : HQueue) (b : Bool) : Nat := (if b then q.p1 else q.p2).getD 0

def happly_op (s : World × HQueue) : HOp → World × HQueue
  | HOp.attack b =>
    hattack s.1 s.2 (hop_caster s.2 b)
  | HOp.special b =>
    hspecial s.1 s.2 (hop_caster s.2 b)
  | HOp.addTicket b => (s.1, hadd s.1 s.2 (hop_caster s.2 b))
  | HOp.removeTicket => (s.1, hremove s.1 s.2)
  | HOp.peekClean => (s.1, hclean s.1 s.2)

/-- The clone pair allocated at `n`: both players' fields point at the two
fresh cells, which call each other enemies. -/
def CFresh (n : Nat) (s : World × HQueue) : Prop :=
  n + 2 ≤ s.1.length ∧ s.2.p1 = some n ∧ s.2.p2 = some (n + 1) ∧
  (hchar s.1 n).enemy = n + 1 ∧ (hchar s.1 (n + 1)).enemy = n

/-- Cells below `n` agree. -/
def FrameLt (n : Nat) (w w2 : World) : Prop := ∀ i, i < n → w2[i]? = w[i]?

theorem hchar_set_sp_enemy (w : World) (r : Nat) (hr : r < w.length) (v : Nat) (j : Nat) :
    (hchar (w.set r { hchar w r with sp := v }) j).enemy = (hchar w j).enemy := by
  by_cases hj : r = j
  · subst hj
    rw [hchar_set_self w r _ hr]
  · rw [hchar_set_other w r _ j hj]

theorem hchar_set_hp_enemy (w : World) (r : Nat) (hr : r < w.length) (v : Nat) (j : Nat) :
    (hchar (w.set r { hchar w r with hp := v }) j).enemy = (hchar w j).enemy := by
  by_cases hj : r = j
  · subst hj
    rw [hchar_set_self w r _ hr]
  · rw [hchar_set_other w r _ j hj]

theorem cfresh_deal (n : Nat) (s : World × HQueue) (h : CFresh n s)
    (caster cost dmg : Nat) (hc : caster = n ∨ caster = n + 1) :
    CFresh n (hdeal_damage s.1 caster cost dmg, s.2) ∧
      FrameLt n s.1 (hdeal_damage s.1 caster cost dmg) := by
  obtain ⟨hlen, hp1, hp2, he1, he2⟩ := h
  have hclen : caster < s.1.length := by omega
  have henemy : (hchar s.1 caster).enemy = if caster = n then n + 1 else n := by
    rcases hc with hcn | hcn <;> subst hcn
    · rw [if_pos rfl]; exact he1
    · rw [if_neg (by omega)]; exact he2
  have helen : (hchar s.1 caster).enemy < s.1.length := by
    rw [henemy]; split <;> omega
  rw [hdeal_damage, happly_damage, hreduce_sp, hset, hset]
  have helen1 : (hchar s.1 caster).enemy
      < (s.1.set caster { hchar s.1 caster with sp := (hchar s.1 caster).sp - cost }).length := by
    rw [List.length_set]; exact helen
  refine ⟨⟨?_, hp1, hp2, ?_, ?_⟩, ?_⟩
  · simp only [List.length_set]; exact hlen
  · rw [hchar_set_hp_enemy _ _ helen1 _ n, hchar_set_sp_enemy s.1 caster hclen _ n]
    exact he1
  · rw [hchar_set_hp_enemy _ _ helen1 _ (n + 1), hchar_set_sp_enemy s.1 caster hclen _ (n + 1)]
    exact he2
  · intro i hi
    rw [List.getElem?_set, if_neg ?_, List.getElem?_set, if_neg (by omega)]
    rw [henemy]
    split <;> omega

theorem frameLt_trans {n : Nat} {w w2 w3 : World}
    (h1 : FrameLt n w w2) (h2 : FrameLt n w2 w3) : FrameLt n w w3 :=
  fun i hi => (h2 i hi).trans (h1 i hi)

theorem hop_caster_mem (n : Nat) (q : HQueue) (b : Bool)
    (hp1 : q.p1 = some n) (hp2 : q.p2 = some (n + 1)) :
    hop_caster q b = n ∨ hop_caster q b = n + 1 := by
  rw [hop_caster]
  cases b
  · rw [if_neg (by simp), hp2, Option.getD_some]
    exact Or.inr rfl
  · rw [if_pos rfl, hp1, Option.getD_some]
    exact Or.inl rfl

theorem cfresh_hadd (n : Nat) (w : World) (q : HQueue) (r : Nat)
    (hp1 : q.p1 = some n) :
    (hadd w q r).p1 = q.p1 ∧ (hadd w q r).p2 = q.p2 := by
  constructor
  · rw [hadd_p1, if_neg (by rw [hp1]; exact Option.noConfusion)]
  · rw [hadd_p2, if_neg (by rw [hp1]; exact Option.noConfusion)]

/-- Every mutation of the clone keeps the clone pair fresh and leaves all
cells below `n` untouched. -/
theorem cfresh_op (n : Nat) (s : World × HQueue) (h : CFresh n s) (op : HOp) :
    CFresh n (happly_op s op) ∧ FrameLt n s.1 (happly_op s op).1 := by
  obtain ⟨hlen, hp1, hp2, he1, he2⟩ := h
  have hframe_id : FrameLt n s.1 s.1 := fun i _ => rfl
  cases op with
  | attack b =>
    have hcm := hop_caster_mem n s.2 b hp1 hp2
    have hd := cfresh_deal n s ⟨hlen, hp1, hp2, he1, he2⟩ (hop_caster s.2 b)
      (attack_cost (hchar s.1 (hop_caster s.2 b)).kind)
      (attack_damage (hchar s.1 (hop_caster s.2 b)).kind) hcm
    obtain ⟨⟨hl, _, _, h1, h2⟩, hf⟩ := hd
    have hq := cfresh_hadd n
      (hdeal_damage s.1 (hop_caster s.2 b) (attack_cost (hchar s.1 (hop_caster s.2 b)).kind)
        (attack_damage (hchar s.1 (hop_caster s.2 b)).kind)) s.2 (hop_caster s.2 b) hp1
    refine ⟨⟨hl, ?_, ?_, h1, h2⟩, hf⟩
    · show (hadd _ s.2 _).p1 = some n
      rw [hq.1, hp1]
    · show (hadd _ s.2 _).p2 = some (n + 1)
      rw [hq.2, hp2]
  | special b =>
    have hcm := hop_caster_mem n s.2 b hp1 hp2
    show CFresh n (hspecial s.1 s.2 (hop_caster s.2 b)) ∧
      FrameLt n s.1 (hspecial s.1 s.2 (hop_caster s.2 b)).1
    rw [hspecial]
    cases hk : (hchar s.1 (hop_caster s.2 b)).kind
    · have hd := cfresh_deal n s ⟨hlen, hp1, hp2, he1, he2⟩ (hop_caster s.2 b) 30 40 hcm
      obtain ⟨⟨hl, _, _, h1, h2⟩, hf⟩ := hd
      have hq1 := cfresh_hadd n (hdeal_damage s.1 (hop_caster s.2 b) 30 40)
        (hadd (hdeal_damage s.1 (hop_caster s.2 b) 30 40) s.2
          (hchar s.1 (hop_caster s.2 b)).enemy) (hop_caster s.2 b)
        (by rw [(cfresh_hadd n _ s.2 _ hp1).1, hp1])
      refine ⟨⟨hl, ?_, ?_, h1, h2⟩, hf⟩
      · rw [hq1.1, (cfresh_hadd n _ s.2 _ hp1).1, hp1]
      · rw [hq1.2, (cfresh_hadd n _ s.2 _ hp1).2, hp2]
    · have hd := cfresh_deal n s ⟨hlen, hp1, hp2, he1, he2⟩ (hop_caster s.2 b) 10 20 hcm
      obtain ⟨⟨hl, _, _, h1, h2⟩, hf⟩ := hd
      have hq1 := cfresh_hadd n (hdeal_damage s.1 (hop_caster s.2 b) 10 20)
        (hadd (hdeal_damage s.1 (hop_caster s.2 b) 10 20) s.2 (hop_caster s.2 b))
        (hop_caster s.2 b) (by rw [(cfresh_hadd n _ s.2 _ hp1).1, hp1])
      refine ⟨⟨hl, ?_, ?_, h1, h2⟩, hf⟩
      · rw [hq1.1, (cfresh_hadd n _ s.2 _ hp1).1, hp1]
      · rw [hq1.2, (cfresh_hadd n _ s.2 _ hp1).2, hp2]
  | addTicket b =>
    have hq := cfresh_hadd n s.1 s.2 (hop_caster s.2 b) hp1
    exact ⟨⟨hlen, by rw [show (happly_op s (HOp.addTicket b)).2 = hadd s.1 s.2 (hop_caster s.2 b) from rfl, hq.1, hp1],
      by rw [show (happly_op s (HOp.addTicket b)).2 = hadd s.1 s.2 (hop_caster s.2 b) from rfl, hq.2, hp2],
      he1, he2⟩, hframe_id⟩
  | removeTicket =>
    exact ⟨⟨hlen, hp1, hp2, he1, he2⟩, hframe_id⟩
  | peekClean =>
    exact ⟨⟨hlen, hp1, hp2, he1, he2⟩, hframe_id⟩

theorem cfresh_fold (n : Nat) (ops : List HOp) :
    ∀ s, CFresh n s →
      CFresh n (ops.foldl happly_op s) ∧ FrameLt n s.1 (ops.foldl happly_op s).1 := by
  induction ops with
  | nil => intro s h; exact ⟨h, fun i _ => rfl⟩
  | cons op rest ih =>
    intro s h
    rw [List.foldl_cons]
    have h1 := cfresh_op n s h op
    have h2 := ih (happly_op s op) h1.1
    exact ⟨h2.1, frameLt_trans h1.2 h2.2⟩

/-- A fresh copy satisfies the clone-pair invariant at `n = |w|`. -/
theorem cfresh_copy (w : World) (q : HQueue) : CFresh w.length (hcopy w q) := by
  refine ⟨le_of_eq (hcopy_fst_length w q).symm, hcopy_snd_p1 w q, hcopy_snd_p2 w q, ?_, ?_⟩
  · rw [hchar_copy_n]
  · rw [hchar_copy_n1]

/-! ### The claims -/

/-- Claim C1 (amended): for every game state on which the game is not yet
over, `MinimaxIterativePlaystyle.select_attack` returns exactly the action
`MinimaxRecursivePlaystyle.select_attack` returns (so in particular their
guaranteed scores agree), and that action's guaranteed score is the
optimal score `get_state_score` computes.  The amendment drops over-states
with a non-empty action list, where the iterative variant raises a
`TypeError` instead of returning an action (see the counterexample). -/
theorem minimax_variants_agree_on_live_states (gs : GameState)
    (hover : bq_is_over gs = false) :
    select_attack_iter gs = some (select_attack_rec gs) ∧
      branch_score gs (select_attack_rec gs) = get_state_score gs :=
  ⟨select_attack_iter_eq gs hover, (select_attack_rec_optimal gs hover).2⟩

theorem minimax_variants_agree_witness :
    bq_is_over ⟨[Player.P1, Player.P2], ⟨CharKind.rogue, 50, 4⟩, ⟨CharKind.rogue, 60, 3⟩⟩ = false ∧
      (select_attack_iter ⟨[Player.P1, Player.P2], ⟨CharKind.rogue, 50, 4⟩, ⟨CharKind.rogue, 60, 3⟩⟩
          = some (select_attack_rec ⟨[Player.P1, Player.P2], ⟨CharKind.rogue, 50, 4⟩, ⟨CharKind.rogue, 60, 3⟩⟩) ∧
        branch_score ⟨[Player.P1, Player.P2], ⟨CharKind.rogue, 50, 4⟩, ⟨CharKind.rogue, 60, 3⟩⟩
            (select_attack_rec ⟨[Player.P1, Player.P2], ⟨CharKind.rogue, 50, 4⟩, ⟨CharKind.rogue, 60, 3⟩⟩)
          = get_state_score ⟨[Player.P1, Player.P2], ⟨CharKind.rogue, 50, 4⟩, ⟨CharKind.rogue, 60, 3⟩⟩) :=
  ⟨by decide, minimax_variants_agree_on_live_states _ (by decide)⟩

/-- Claim C1, counterexample to the unamended claim: on an over-state whose
front actor still has actions (enemy at 0 HP, rogue with 4 SP up front),
the iterative variant's root node is terminal, is never given children,
and the final `for child in root_node.children` raises a `TypeError`
(modelled as `none`) — while the recursive variant returns `'A'`.  The two
variants therefore do not return actions of equal score on this state. -/
theorem minimax_iter_crashes_on_over_state :
    select_attack_iter ⟨[Player.P1, Player.P2], ⟨CharKind.rogue, 40, 4⟩, ⟨CharKind.rogue, 0, 6⟩⟩ = none ∧
      select_attack_rec ⟨[Player.P1, Player.P2], ⟨CharKind.rogue, 40, 4⟩, ⟨CharKind.rogue, 0, 6⟩⟩ = Move.A ∧
      bq_is_over ⟨[Player.P1, Player.P2], ⟨CharKind.rogue, 40, 4⟩, ⟨CharKind.rogue, 0, 6⟩⟩ = true := by
  refine ⟨by decide, by decide, by decide⟩

/-- Claim C2: on every queue on which `is_over()` is true,
`get_state_score_player(p, q)` returns the surviving actor's HP if `p`
survives alone, the negation of the survivor's HP if `p`'s opponent
survives alone, and `0` on a tie — both when the queue is exhausted with
both actors alive and when both are at zero HP (in the both-zero case
`get_winner` names player 2, but its HP is `0`, so the score is `0`
either way). -/
theorem terminal_score_spec (p : Player) (gs : GameState) (h : bq_is_over gs = true) :
    (((charOf gs p).hp ≠ 0 ∧ (charOf gs (otherP p)).hp = 0) →
        get_state_score_player p gs = ((charOf gs p).hp : Int)) ∧
    (((charOf gs p).hp = 0 ∧ (charOf gs (otherP p)).hp ≠ 0) →
        get_state_score_player p gs = -((charOf gs (otherP p)).hp : Int)) ∧
    (((charOf gs p).hp ≠ 0 ∧ (charOf gs (otherP p)).hp ≠ 0) →
        get_state_score_player p gs = 0) ∧
    (((charOf gs p).hp = 0 ∧ (charOf gs (otherP p)).hp = 0) →
        get_state_score_player p gs = 0) := by
  rw [get_state_score_player_unfold, if_pos h]
  refine ⟨?_, ?_, ?_, ?_⟩ <;> rintro ⟨h1, h2⟩ <;> cases p <;>
    simp only [charOf, otherP] at h1 h2 <;>
    simp [terminal_score, get_winner, charOf, otherP, h, h1, h2]

theorem terminal_score_spec_witness :
    bq_is_over ⟨[Player.P1], ⟨CharKind.rogue, 80, 5⟩, ⟨CharKind.rogue, 0, 5⟩⟩ = true ∧
      get_state_score_player Player.P1 ⟨[Player.P1], ⟨CharKind.rogue, 80, 5⟩, ⟨CharKind.rogue, 0, 5⟩⟩ = 80 :=
  ⟨by decide,
    (terminal_score_spec Player.P1 ⟨[Player.P1], ⟨CharKind.rogue, 80, 5⟩, ⟨CharKind.rogue, 0, 5⟩⟩
      (by decide)).1 ⟨by decide, by decide⟩⟩

/-- Claim C3 (amended): `get_winner()` returns `None` unless `is_over()`,
and when the game is over it returns the player with nonzero HP when
exactly one is at zero, and `None` when the game is over with both alive
(exhausted queue).  The amendment: when both players are at `0` HP
simultaneously, the `self._p1.get_hp() == 0` branch fires first and the
method returns player 2 — not `None` as the spec's tie rule states. -/
theorem get_winner_branches (gs : GameState) :
    (bq_is_over gs = false → get_winner gs = none) ∧
    (gs.p1.hp = 0 → gs.p2.hp ≠ 0 → get_winner gs = some Player.P2) ∧
    (gs.p2.hp = 0 → gs.p1.hp ≠ 0 → get_winner gs = some Player.P1) ∧
    (bq_is_over gs = true → gs.p1.hp ≠ 0 → gs.p2.hp ≠ 0 → get_winner gs = none) ∧
    (gs.p1.hp = 0 → gs.p2.hp = 0 → get_winner gs = some Player.P2) := by
  refine ⟨?_, ?_, ?_, ?_, ?_⟩
  · intro h
    simp [get_winner, h]
  · intro h1 h2
    have hov : bq_is_over gs = true := by simp [bq_is_over, h1]
    simp [get_winner, hov, h1, h2]
  · intro h1 h2
    have hov : bq_is_over gs = true := by simp [bq_is_over, h1]
    simp [get_winner, hov, h1, h2]
  · intro hov h1 h2
    simp [get_winner, hov, h1, h2]
  · intro h1 h2
    have hov : bq_is_over gs = true := by simp [bq_is_over, h1]
    simp [get_winner, hov, h1]

/-- Claim C3, counterexample to the tie rule: a queue whose two players
are both at `0` HP, on which `get_winner()` returns player 2 rather than
`None`. -/
theorem get_winner_both_zero_not_none :
    get_winner ⟨[], ⟨CharKind.rogue, 0, 5⟩, ⟨CharKind.rogue, 0, 4⟩⟩ = some Player.P2 := by
  decide

/-- Claim C4: the condition-false half of the claim holds (a node whose
condition evaluates false contributes exactly itself), but the leaf half
is a code bug: `__init__` stores `children[:] if children else []`, so
`children` is never `None`, the `self.children is None` test is dead code,
and a leaf whose condition evaluates TRUE falls through to
`sum([...for child in []], [])`, returning the empty list instead of
`[self]` — contradicting the claim and the method's own docstring
("Returns the list containing only self if self is a leaf"). -/
theorem get_possible_skills_leaf_behavior :
    (∀ (v : Skill) (c : TChar → TChar → Bool) (pr : Nat)
        (cs : List SkillDecisionTree) (caster target : TChar),
      c caster target = false →
        get_possible_skills (.node v c pr cs) caster target = [.node v c pr cs]) ∧
    get_possible_skills
        (.node Skill.rogueAttack (fun _ _ => true) 6 []) ⟨100, 100⟩ ⟨100, 100⟩ = [] := by
  constructor
  · intro v c pr cs caster target hc
    rw [get_possible_skills_eq, if_pos (by simp [hc])]
  · rw [get_possible_skills_eq, if_neg (by simp)]
    simp

/-- Claim C5: `pick_skill` returns `None` exactly when the candidate set
is empty, and otherwise returns the skill of the candidate whose priority
number is numerically smallest (priorities are unique by precondition, so
the strict-`<` scan lands on it). -/
theorem pick_skill_smallest_priority (t : SkillDecisionTree) (caster target : TChar) :
    (get_possible_skills t caster target = [] → pick_skill t caster target = none) ∧
    (∀ m ∈ get_possible_skills t caster target,
      (∀ x ∈ get_possible_skills t caster target, m.priority ≤ x.priority) →
      (∀ x ∈ get_possible_skills t caster target, x.priority = m.priority → x = m) →
      pick_skill t caster target = some m.value) := by
  constructor
  · intro h
    rw [pick_skill, h]
  · intro m hm hmin huniq
    rw [pick_skill]
    cases hg : get_possible_skills t caster target with
    | nil =>
      rw [hg] at hm
      exact absurd hm (List.not_mem_nil m)
    | cons hd rest =>
      rw [hg] at hm hmin huniq
      have hres := foldl_min_mem (hd :: rest) hd
      have hresmem :
          ((hd :: rest).foldl (fun best n => if n.priority < best.priority then n else best) hd)
            ∈ hd :: rest := by
        rcases hres with he | hm2
        · rw [he]
          exact List.mem_cons_self _ _
        · exact hm2
      have hle := (foldl_min_le (hd :: rest) hd).2 m hm
      have hge := hmin _ hresmem
      have heqm := huniq _ hresmem (le_antisymm hle hge)
      dsimp only
      rw [heqm]

/-- Claim C6: for every restricted queue reachable from the empty queue by
any sequence of `add` / `remove` / `peek` / `is_empty` / `copy` (the two
observers touch the state only through `_clean_queue`), no actor ever has
more than two tickets carrying the eligible permission bit at once. -/
theorem restricted_queue_eligibility_cap (env : Player → CharData) (s : RState)
    (h : RReachable env s) : ∀ p, get_add_ability_count s p ≤ 2 :=
  fun p => (rreachable_inv env s h).2 p

theorem restricted_queue_eligibility_cap_witness :
    get_add_ability_count (r_add (r_add (r_add r_empty Player.P1) Player.P1) Player.P1)
      Player.P1 ≤ 2 :=
  restricted_queue_eligibility_cap (fun _ => ⟨CharKind.rogue, 100, 100⟩) _
    (RReachable.add _ _ (RReachable.add _ _ (RReachable.add _ _ RReachable.init)))
    Player.P1

/-- Claim C7 (amended): scoring and both playstyles' decision processes
never mutate any character that existed before the call — every
pre-existing cell of the arena is bit-identical afterwards, so the
original actors' HP and SP are untouched (the search works on fresh
clones only).  Each `select_attack`, however, returns with the source
queue's ticket list lazily cleaned: the `peek()` at its top pops
exhausted front tickets of the original queue in place, so the claim's
"never mutate the source queue's ticket order" fails (see the
counterexample). -/
theorem search_leaves_original_characters_intact (w : World) (q : HQueue) :
    (∀ i, i < w.length → (hget_state_score w q).1[i]? = w[i]?) ∧
    (∀ i, i < w.length → (hselect_rec w q).1[i]? = w[i]?) ∧
    (∀ i, i < w.length → (hselect_iter w q).1[i]? = w[i]?) ∧
    (hselect_rec w q).2.1 = hclean w q ∧
    (hselect_iter w q).2.1 = hclean w q :=
  ⟨(hget_state_score_hext w q).2, (hselect_rec_hext w q).2, (hselect_iter_hext w q).2,
    hselect_rec_queue w q, hselect_iter_queue w q⟩

/-- Claim C7, counterexample to the unamended claim: a queue whose front
ticket holder is out of SP (2 SP, rogue).  The recursive `select_attack`'s
opening `peek()` cleans the original queue in place, dropping the front
ticket: the source's ticket list changes from `[0, 1]` to `[1]`. -/
theorem select_attack_cleans_source_queue :
    (hselect_rec [⟨CharKind.rogue, 10, 2, 1⟩, ⟨CharKind.rogue, 10, 3, 0⟩]
        ⟨[0, 1], some 0, some 1⟩).2.1 ≠ ⟨[0, 1], some 0, some 1⟩ := by
  decide

/-- Claim C8: on a queue whose front actor has an available action but
whose game is already over, the iterative `select_attack` does NOT return
`'X'`: the root node is terminal and never given children, and the final
`for child in root_node.children` iterates over `None`, raising a
`TypeError` (modelled as `none`).  The claimed `NoAction` fallback
`return root_node.action_taken` is unreachable on this path. -/
theorem iterative_over_state_raises :
    select_attack_iter ⟨[Player.P1], ⟨CharKind.rogue, 10, 3⟩, ⟨CharKind.rogue, 0, 4⟩⟩ = none ∧
      front_actions ⟨[Player.P1], ⟨CharKind.rogue, 10, 3⟩, ⟨CharKind.rogue, 0, 4⟩⟩ = [Move.A] ∧
      bq_is_over ⟨[Player.P1], ⟨CharKind.rogue, 10, 3⟩, ⟨CharKind.rogue, 0, 4⟩⟩ = true := by
  refine ⟨by decide, by decide, by decide⟩

/-- Claim C9: mutating the result of `copy()` — the clones attacking, the
copy's tickets being added, removed or lazily cleaned, in any sequence —
never changes any cell of the arena that existed before the copy: every
original character's kind, HP, SP and enemy link read back exactly as
before, because the copy operates on the two freshly allocated clone
cells only (the source's ticket list is a distinct list object the copy
never touches). -/
theorem copy_mutation_never_affects_source (w : World) (q : HQueue) (ops : List HOp)
    (i : Nat) (hi : i < w.length) :
    (ops.foldl happly_op (hcopy w q)).1[i]? = w[i]? := by
  have h1 := (cfresh_fold w.length ops (hcopy w q) (cfresh_copy w q)).2
  exact (h1 i hi).trans ((hext_copy w q).2 i hi)

theorem copy_mutation_never_affects_source_witness :
    ([HOp.attack true, HOp.special false, HOp.addTicket true, HOp.removeTicket,
        HOp.peekClean].foldl happly_op
      (hcopy [⟨CharKind.rogue, 30, 9, 1⟩, ⟨CharKind.mage, 40, 12, 0⟩]
        ⟨[0, 1], some 0, some 1⟩)).1[0]?
      = [⟨CharKind.rogue, 30, 9, 1⟩, ⟨CharKind.mage, 40, 12, 0⟩][0]? :=
  copy_mutation_never_affects_source
    [⟨CharKind.rogue, 30, 9, 1⟩, ⟨CharKind.mage, 40, 12, 0⟩] ⟨[0, 1], some 0, some 1⟩
    [HOp.attack true, HOp.special false, HOp.addTicket true, HOp.removeTicket, HOp.peekClean]
    0 (by decide)

/-- Claim C10: `peek()` on a `BattleQueue` to which no character was ever
added returns `None`: the ticket list is empty, so the method falls back
to `self._p1`, which `__init__` left as `None`. -/
theorem peek_on_never_populated_queue_none (env : Player → CharData) :
    raw_peek env raw_init = none := rfl
